import Mathlib

/-!
Shallow embedding of the crochet pattern compiler (Flying-Toast/crochet).

The source files embedded here are src/lex.rs (tokenizer), src/parse.rs
(recursive-descent parser), src/lib.rs (instruction tree, stitch counts,
canonical serializer, parse_rounds entry point), src/lint.rs (lint pass) and
src/pretty_print.rs (report printer).  Source text is modelled as List Char
(the repository only ever feeds ASCII through the byte-level scanner, where
bytes and characters coincide).  Machine integers (u32 counts and literals,
usize indices) are modelled as Nat; the one place where the u32 range matters
(str::parse::<u32> inside lex_number) is modelled separately by rustParseU32.
-/

/-- Whitespace as Rust char::is_whitespace sees it (the Unicode White_Space
property), used by str::trim_end in TokenStream::new and str::trim in
lex_comment. -/
def isRustWhitespace (c : Char) : Bool :=
  let n := c.toNat
  (0x09 ≤ n && n ≤ 0x0d) || n == 0x20 || n == 0x85 || n == 0xa0 ||
  n == 0x1680 || (0x2000 ≤ n && n ≤ 0x200a) || n == 0x2028 || n == 0x2029 ||
  n == 0x202f || n == 0x205f || n == 0x3000

/-- Rust str::trim_end on a character list: drop trailing whitespace. -/
def trimEndRust (l : List Char) : List Char :=
  (l.reverse.dropWhile isRustWhitespace).reverse

/-- Rust str::trim on a character list: drop leading and trailing whitespace. -/
def trimChars (l : List Char) : List Char :=
  ((l.dropWhile isRustWhitespace).reverse.dropWhile isRustWhitespace).reverse

/-- Decimal digit test, as the byte range pattern b'0'..=b'9' in lex_number. -/
def isDigitChar (c : Char) : Bool :=
  48 ≤ c.toNat && c.toNat ≤ 57

/-- Numeric value of a run of decimal digits, accumulated left to right; this
is the value str::parse::<u32> computes when it does not overflow. -/
def digitsVal (l : List Char) : Nat :=
  l.foldl (fun a c => 10 * a + (c.toNat - 48)) 0

/-- Rust str::parse::<u32>: the digit-run value if it fits in a u32, and
failure (PosOverflow) otherwise.  lex_number calls this and unwraps the
result, so the none case is an unhandled panic in the source. -/
def rustParseU32 (l : List Char) : Option Nat :=
  let v := digitsVal l
  if v < 2 ^ 32 then some v else none

/-- Token kinds, from the TokenKind enum in src/lex.rs. -/
inductive TokenKind where
  | Ch
  | Tch
  | Sc
  | Fpsc
  | Bpsc
  | Blsc
  | Inc
  | Flinc
  | Blinc
  | Dec
  | InMr
  | Number (n : Nat)
  | Newline
  | LBracket
  | RBracket
  | Comma
  | Comment (s : List Char)
  | Skip
deriving DecidableEq, Repr

/-- A positioned token, from the Token struct in src/lex.rs; line and col are
one-based and mark the token's first character. -/
structure Token where
  kind : TokenKind
  line : Nat
  col : Nat
deriving DecidableEq, Repr

/-- The scanner part of TokenStream (source, line, col fields); the one-token
lookahead buffer is kept separately in TokenStream below. -/
structure Lexer where
  source : List Char
  line : Nat
  col : Nat
deriving DecidableEq, Repr

/-- TokenStream::peek_char. -/
def peekChar (lx : Lexer) : Option Char :=
  lx.source.head?

/-- TokenStream::next_char: consume one character, advancing the position
(newline bumps the line and resets the column to one). -/
def nextChar (lx : Lexer) : Option Char × Lexer :=
  match lx.source with
  | [] => (none, lx)
  | c :: rest =>
    if c = '\n' then (some c, ⟨rest, lx.line + 1, 1⟩)
    else (some c, ⟨rest, lx.line, lx.col + 1⟩)

/-- Consume n characters via nextChar (the loop inside eat_string). -/
def consumeChars : Nat → Lexer → Lexer
  | 0, lx => lx
  | n + 1, lx => consumeChars n (nextChar lx).2

/-- TokenStream::eat_string: if the source starts with the given string,
consume it character by character. -/
def eatString (s : List Char) (lx : Lexer) : Option Lexer :=
  if s.isPrefixOf lx.source then some (consumeChars s.length lx) else none

/-- TokenStream::eat_whitespace, recursing over the source list: skip space
and tab (which never change the line, only the column). -/
def eatWhitespaceGo : List Char → Nat → Nat → Lexer
  | [], line, col => ⟨[], line, col⟩
  | c :: rest, line, col =>
    if c = ' ' ∨ c = '\t' then eatWhitespaceGo rest line (col + 1)
    else ⟨c :: rest, line, col⟩

/-- TokenStream::eat_whitespace. -/
def eatWhitespace (lx : Lexer) : Lexer :=
  eatWhitespaceGo lx.source lx.line lx.col

/-- TokenStream::lex_symbol: newline, brackets and comma, single character
each, with the token positioned before the character is consumed. -/
def lexSymbol (lx : Lexer) : Option (Token × Lexer) :=
  match peekChar lx with
  | none => none
  | some c =>
    if c = '\n' then some (⟨.Newline, lx.line, lx.col⟩, (nextChar lx).2)
    else if c = '[' then some (⟨.LBracket, lx.line, lx.col⟩, (nextChar lx).2)
    else if c = ']' then some (⟨.RBracket, lx.line, lx.col⟩, (nextChar lx).2)
    else if c = ',' then some (⟨.Comma, lx.line, lx.col⟩, (nextChar lx).2)
    else none

/-- The keyword table of TokenStream::lex_keyword after its stable sort by
descending literal length (the source sorts the array on every call; the
sorted order is written out here: lengths 5, then 4, then 3, then 2, each
group keeping the original array order). -/
def keywordTable : List (List Char × TokenKind) :=
  [("in mr".data, .InMr),
   ("blinc".data, .Blinc),
   ("flinc".data, .Flinc),
   ("fpsc".data, .Fpsc),
   ("bpsc".data, .Bpsc),
   ("blsc".data, .Blsc),
   ("skip".data, .Skip),
   ("inc".data, .Inc),
   ("dec".data, .Dec),
   ("tch".data, .Tch),
   ("sc".data, .Sc),
   ("ch".data, .Ch)]

/-- The loop body of lex_keyword: try each keyword in order; the token is
positioned at the pre-consumption location. -/
def tryKeywords : List (List Char × TokenKind) → Lexer → Option (Token × Lexer)
  | [], _ => none
  | (s, k) :: rest, lx =>
    match eatString s lx with
    | some lx' => some (⟨k, lx.line, lx.col⟩, lx')
    | none => tryKeywords rest lx

/-- TokenStream::lex_keyword. -/
def lexKeyword (lx : Lexer) : Option (Token × Lexer) :=
  tryKeywords keywordTable lx

/-- TokenStream::lex_number: a maximal run of decimal digits.  The source
converts the run with str::parse::<u32>().unwrap(), which panics when the
value does not fit in a u32 (see rustParseU32); the token value is modelled
as the unbounded digit-run value. -/
def lexNumber (lx : Lexer) : Option (Token × Lexer) :=
  let digits := lx.source.takeWhile isDigitChar
  if digits.isEmpty then none
  else some (⟨.Number (digitsVal digits), lx.line, lx.col⟩,
             consumeChars digits.length lx)

/-- TokenStream::lex_comment: at a percent sign, scan to the closing percent
sign; the payload is the enclosed text trimmed of surrounding whitespace.  If
no closing percent sign exists the scan position is rolled back to before the
opening one and no token is produced. -/
def lexComment (lx : Lexer) : Option (Token × Lexer) :=
  match peekChar lx with
  | some c =>
    if c = '%' then
      let lx1 := (nextChar lx).2
      let payload := lx1.source.takeWhile (fun ch => ch ≠ '%')
      if payload.length = lx1.source.length then
        none
      else
        some (⟨.Comment (trimChars payload), lx.line, lx.col⟩,
              consumeChars (payload.length + 1) lx1)
    else none
  | none => none

/-- The body of the Iterator::next impl once the lookahead buffer is known to
be empty: skip space and tab, then try the four sub-lexers in order; if none
matches, no token is produced and only the whitespace has been consumed. -/
def lexNext (lx : Lexer) : Option Token × Lexer :=
  let lx1 := eatWhitespace lx
  match lexSymbol lx1 with
  | some (t, lx') => (some t, lx')
  | none =>
    match lexKeyword lx1 with
    | some (t, lx') => (some t, lx')
    | none =>
      match lexNumber lx1 with
      | some (t, lx') => (some t, lx')
      | none =>
        match lexComment lx1 with
        | some (t, lx') => (some t, lx')
        | none => (none, lx1)

/-- TokenStream: the scanner plus the one-token lookahead buffer. -/
structure TokenStream where
  lx : Lexer
  peeked : Option Token
deriving DecidableEq, Repr

/-- Iterator::next for TokenStream: take the buffered token if present, else
run the lexer. -/
def streamNext (ts : TokenStream) : Option Token × TokenStream :=
  match ts.peeked with
  | some t => (some t, ⟨ts.lx, none⟩)
  | none =>
    let (t?, lx') := lexNext ts.lx
    (t?, ⟨lx', none⟩)

/-- TokenStream::peek: fill the lookahead buffer if empty and return it. -/
def streamPeek (ts : TokenStream) : Option Token × TokenStream :=
  match ts.peeked with
  | some t => (some t, ts)
  | none =>
    let (t?, lx') := lexNext ts.lx
    (t?, ⟨lx', t?⟩)

/-- TokenStream::is_empty. -/
def isEmptyTS (ts : TokenStream) : Bool :=
  ts.lx.source.isEmpty && ts.peeked.isNone

/-- TokenStream::current_loc: the buffered token's position if one is
buffered, else the scanner's current position. -/
def currentLoc (ts : TokenStream) : Nat × Nat :=
  match ts.peeked with
  | some p => (p.line, p.col)
  | none => (ts.lx.line, ts.lx.col)

/-- tokenize / TokenStream::new: trim trailing whitespace from the source and
start at line 1, column 1 with an empty lookahead buffer. -/
def tokenize (source : List Char) : TokenStream :=
  ⟨⟨trimEndRust source, 1, 1⟩, none⟩

/-- The instruction tree, from the Instruction enum in src/lib.rs.  The Skip
variant is constructed by the parser (src/parse.rs) for the skip keyword;
its declaration and match arms are missing from the lib.rs snapshot, and are
modelled from the spec where needed (see inputCount, outputCount,
renderInst). -/
inductive Instruction where
  | Ch
  | Sc
  | Fpsc
  | Bpsc
  | Blsc
  | Inc
  | Flinc
  | Blinc
  | Dec
  | IntoMagicRing (i : Instruction)
  | Group (l : List Instruction)
  | Repeat (i : Instruction) (n : Nat)
  | Comment (s : List Char)
  | Skip (n : Nat)
deriving Repr

mutual

/-- Instruction::input_count: how many stitches an instruction consumes.
Modelled from the spec: the Skip arm (a skip of n consumes n stitches),
which the lib.rs snapshot omits although parse.rs constructs Skip. -/
def inputCount : Instruction → Nat
  | .Ch => 0
  | .Sc => 1
  | .Fpsc => 1
  | .Bpsc => 1
  | .Blsc => 1
  | .Inc => 1
  | .Flinc => 1
  | .Blinc => 1
  | .Dec => 2
  | .IntoMagicRing _ => 0
  | .Group insts => inputCountList insts
  | .Repeat inst times => inputCount inst * times
  | .Comment _ => 0
  | .Skip n => n

/-- The iter().map(input_count).sum() over a group's children. -/
def inputCountList : List Instruction → Nat
  | [] => 0
  | x :: xs => inputCount x + inputCountList xs

end

mutual

/-- Instruction::output_count: how many stitches an instruction creates.
Modelled from the spec: the Skip arm (a skip produces 0 stitches), which
the lib.rs snapshot omits although parse.rs constructs Skip. -/
def outputCount : Instruction → Nat
  | .Ch => 1
  | .Sc => 1
  | .Fpsc => 1
  | .Bpsc => 1
  | .Blsc => 1
  | .Inc => 2
  | .Flinc => 2
  | .Blinc => 2
  | .Dec => 1
  | .IntoMagicRing i => outputCount i
  | .Group insts => outputCountList insts
  | .Repeat inst times => outputCount inst * times
  | .Comment _ => 0
  | .Skip _ => 0

/-- The iter().map(output_count).sum() over a group's children. -/
def outputCountList : List Instruction → Nat
  | [] => 0
  | x :: xs => outputCount x + outputCountList xs

end

/-- Digit extraction for natDecimal, most significant digit first; the fuel
argument only bounds the recursion (any fuel at least the value itself is
enough, since a positive number has no more decimal digits than its value). -/
def natDecimalAux : Nat → Nat → List Char
  | 0, _ => []
  | f + 1, n =>
    if n = 0 then []
    else natDecimalAux f (n / 10) ++ [Char.ofNat (48 + n % 10)]

/-- Decimal rendering of a nonnegative integer, as the Rust Display
implementations for u32 and usize produce it (most significant digit first,
a single 0 for zero). -/
def natDecimal (n : Nat) : List Char :=
  if n = 0 then ['0'] else natDecimalAux n n

mutual

/-- The Display impl for Instruction in src/lib.rs: the canonical serializer.
Groups carrying a Repeat or IntoMagicRing suffix are bracket-wrapped; a bare
group is its children joined by comma and space.  Modelled from the spec:
the Skip arm (surface syntax skip n, as accepted by the parser), which the
lib.rs snapshot omits although parse.rs constructs Skip. -/
def renderInst : Instruction → List Char
  | .Ch => "ch".data
  | .Sc => "sc".data
  | .Fpsc => "fpsc".data
  | .Bpsc => "bpsc".data
  | .Blsc => "blsc".data
  | .Inc => "inc".data
  | .Flinc => "flinc".data
  | .Blinc => "blinc".data
  | .Dec => "dec".data
  | .IntoMagicRing g =>
    match g with
    | .Group _ => '[' :: (renderInst g ++ "] in mr".data)
    | _ => renderInst g ++ " in mr".data
  | .Repeat g times =>
    match g with
    | .Group _ => '[' :: (renderInst g ++ ']' :: ' ' :: natDecimal times)
    | _ => renderInst g ++ ' ' :: natDecimal times
  | .Group g => renderBody g
  | .Comment s => '%' :: ' ' :: (s ++ [' ', '%'])
  | .Skip n => "skip ".data ++ natDecimal n

/-- The group body loop of the Display impl: first child, then comma-space
before each further child. -/
def renderBody : List Instruction → List Char
  | [] => []
  | x :: xs => renderInst x ++ renderTail xs

/-- The iter().skip(1) part of the group body loop. -/
def renderTail : List Instruction → List Char
  | [] => []
  | x :: xs => ',' :: ' ' :: renderInst x ++ renderTail xs

end

/-- Newline before each further round in a rendered round sequence. -/
def renderRoundsTail : List Instruction → List Char
  | [] => []
  | r :: rest => '\n' :: renderInst r ++ renderRoundsTail rest

/-- Serialization of a round sequence: each round rendered on its own line
(as the round-trip tests in src/lib.rs join them). -/
def renderRounds (rounds : List Instruction) : List Char :=
  match rounds with
  | [] => []
  | r :: rest => renderInst r ++ renderRoundsTail rest

/-- The second match of maybe_parse_suffix in src/parse.rs: an in mr
lookahead wraps the instruction in IntoMagicRing; any other lookahead leaves
it unchanged with the stream peeked. -/
def maybeParseSuffixMr (ts : TokenStream) (inst : Instruction) :
    Instruction × TokenStream :=
  match streamPeek ts with
  | (some t, ts1) =>
    match t.kind with
    | .InMr => (Instruction.IntoMagicRing inst, (streamNext ts1).2)
    | _ => (inst, ts1)
  | (none, ts1) => (inst, ts1)

/-- maybe_parse_suffix in src/parse.rs: an optional repeat count wraps the
instruction in Repeat (first match), then an optional in mr wraps it in
IntoMagicRing (second match, maybeParseSuffixMr). -/
def maybeParseSuffix (ts : TokenStream) (inst : Instruction) :
    Instruction × TokenStream :=
  match streamPeek ts with
  | (some t, ts1) =>
    match t.kind with
    | .Number n => maybeParseSuffixMr (streamNext ts1).2 (Instruction.Repeat inst n)
    | _ => maybeParseSuffixMr ts1 inst
  | (none, ts1) => maybeParseSuffixMr ts1 inst

/-- The Ok(maybe_parse_suffix(ts, inst)) result shape shared by the nine
stitch-keyword arms of parse_inst. -/
def okSuffixed (ts : TokenStream) (inst : Instruction) :
    Except (Nat × Nat) Instruction × TokenStream :=
  let p := maybeParseSuffix ts inst
  (.ok p.1, p.2)

mutual

/-- parse_inst in src/parse.rs, with explicit fuel for the mutual recursion
with parse_group (the source recursion terminates because every call consumes
at least one token; with fuel at least twice the character count plus a small
constant the fuel branch, returning the impossible location (0, 0), is never
taken).  The source match omits the Tch arm (a snapshot gap, noted as a
latent grammar hole in the spec); Tch is grouped with the tokens the grammar
rejects at their own location. -/
def parseInst : Nat → TokenStream → Except (Nat × Nat) Instruction × TokenStream
  | 0, ts => (.error (0, 0), ts)
  | f + 1, ts =>
    match streamNext ts with
    | (none, ts') => (.error (currentLoc ts'), ts')
    | (some t, ts') =>
      match t.kind with
      | .Ch => okSuffixed ts' .Ch
      | .Sc => okSuffixed ts' .Sc
      | .Fpsc => okSuffixed ts' .Fpsc
      | .Bpsc => okSuffixed ts' .Bpsc
      | .Blsc => okSuffixed ts' .Blsc
      | .Inc => okSuffixed ts' .Inc
      | .Flinc => okSuffixed ts' .Flinc
      | .Blinc => okSuffixed ts' .Blinc
      | .Dec => okSuffixed ts' .Dec
      | .LBracket =>
        match parseGroupAux f ts' [] with
        | (.error e, ts2) => (.error e, ts2)
        | (.ok g, ts2) =>
          match streamNext ts2 with
          | (some t2, ts3) =>
            if t2.kind = .RBracket then okSuffixed ts3 g
            else (.error (t2.line, t2.col), ts3)
          | (none, ts3) => (.error (currentLoc ts3), ts3)
      | .Comment s => (.ok (.Comment s), ts')
      | .Skip =>
        match streamNext ts' with
        | (some t2, ts2) =>
          match t2.kind with
          | .Number n => (.ok (.Skip n), ts2)
          | _ => (.error (t2.line, t2.col), ts2)
        | (none, ts2) => (.error (currentLoc ts2), ts2)
      | .RBracket => (.error (t.line, t.col), ts')
      | .Comma => (.error (t.line, t.col), ts')
      | .Newline => (.error (t.line, t.col), ts')
      | .Number _ => (.error (t.line, t.col), ts')
      | .InMr => (.error (t.line, t.col), ts')
      | .Tch => (.error (t.line, t.col), ts')

/-- The loop of parse_group in src/parse.rs: parse an instruction, push it,
and continue past each comma; any other lookahead ends the group. -/
def parseGroupAux : Nat → TokenStream → List Instruction →
    Except (Nat × Nat) Instruction × TokenStream
  | 0, ts, _ => (.error (0, 0), ts)
  | f + 1, ts, acc =>
    match parseInst f ts with
    | (.error e, ts1) => (.error e, ts1)
    | (.ok i, ts1) =>
      let acc1 := acc ++ [i]
      match streamPeek ts1 with
      | (some t, ts2) =>
        if t.kind = .Comma then parseGroupAux f (streamNext ts2).2 acc1
        else (.ok (.Group acc1), ts2)
      | (none, ts2) => (.ok (.Group acc1), ts2)

end

/-- parse_group in src/parse.rs. -/
def parseGroup (f : Nat) (ts : TokenStream) :
    Except (Nat × Nat) Instruction × TokenStream :=
  parseGroupAux f ts []

/-- The while-let newline-skipping loops of parse in src/parse.rs. -/
def skipNewlines : Nat → TokenStream → TokenStream
  | 0, ts => ts
  | f + 1, ts =>
    match streamPeek ts with
    | (some t, ts1) =>
      if t.kind = .Newline then skipNewlines f (streamNext ts1).2 else ts1
    | (none, ts1) => ts1

/-- The round loop of parse in src/parse.rs: while a token is in view, parse
a group; then the lookahead must be a newline or the stream must be fully
consumed, else the round has trailing garbage; then skip newlines and
continue. -/
def parseRoundsAux : Nat → TokenStream → List Instruction →
    Except (Nat × Nat) (List Instruction) × TokenStream
  | 0, ts, _ => (.error (0, 0), ts)
  | f + 1, ts, acc =>
    match streamPeek ts with
    | (none, ts1) => (.ok acc, ts1)
    | (some _, ts1) =>
      match parseGroupAux f ts1 [] with
      | (.error e, ts2) => (.error e, ts2)
      | (.ok g, ts2) =>
        let acc1 := acc ++ [g]
        let (k, ts3) := streamPeek ts2
        let isNL : Bool :=
          match k with
          | some t => t.kind = .Newline
          | none => false
        if ¬ isNL ∧ ¬ isEmptyTS ts3 then (.error (currentLoc ts3), ts3)
        else parseRoundsAux f (skipNewlines f ts3) acc1

/-- parse in src/parse.rs: skip leading newlines, then run the round loop. -/
def parseTop (f : Nat) (ts : TokenStream) :
    Except (Nat × Nat) (List Instruction) × TokenStream :=
  parseRoundsAux f (skipNewlines f ts) []

/-- Fuel that always suffices for the parser recursion: along any recursion
path at most two fuel decrements happen per consumed source character, plus a
small constant. -/
def parseFuel (ts : TokenStream) : Nat :=
  2 * ts.lx.source.length + 8

/-- parse_rounds in src/lib.rs: tokenize, parse, and fail at the stream's
current location if any input is left unconsumed. -/
def parseRounds (source : List Char) : Except (Nat × Nat) (List Instruction) :=
  let ts := tokenize source
  let (res, ts') := parseTop (parseFuel ts) ts
  if isEmptyTS ts' then res else .error (currentLoc ts')

/-- The Lint enum in src/lint.rs (field order as in the source). -/
inductive Lint where
  | MismatchedStitchCount (a_out : Nat) (a_idx : Nat) (b_in : Nat) (b_idx : Nat)
  | NonzeroFirstRoundInput (actual_consumed : Nat)
deriving DecidableEq, Repr

/-- lint_nonzero_first_round_input in src/lint.rs: the first round's input
count, when nonzero, is reported;  an empty round list reports nothing. -/
def lintNonzeroFirstRoundInput (rounds : List Instruction) : Option Lint :=
  match rounds.head? with
  | none => none
  | some r =>
    let cnt := inputCount r
    if cnt ≠ 0 then some (.NonzeroFirstRoundInput cnt) else none

/-- The inner b-searching loop of lint_mismatched_stitch_count: walk the
rounds after a, skipping rounds with zero input and zero output, and break
with the first suitable round's input count; none when the list runs out. -/
def firstNonDecorativeIn : List Instruction → Option Nat
  | [] => none
  | r :: rest =>
    let incount := inputCount r
    if incount = 0 ∧ outputCount r = 0 then firstNonDecorativeIn rest
    else some incount

/-- The outer loop of lint_mismatched_stitch_count, with i the zero-based
index of the a round; the loop runs while at least one round follows a, a
zero-in zero-out a is skipped, an exhausted b search breaks out of the whole
loop, and a mismatch pushes a finding carrying the indices i plus one and i
plus two. -/
def lintMismatchAux : List Instruction → Nat → List Lint
  | [], _ => []
  | [_], _ => []
  | a :: rest, i =>
    let a_out := outputCount a
    if a_out = 0 ∧ inputCount a = 0 then lintMismatchAux rest (i + 1)
    else
      match firstNonDecorativeIn rest with
      | none => []
      | some b_in =>
        if a_out ≠ b_in then
          .MismatchedStitchCount a_out (i + 1) b_in (i + 2) ::
            lintMismatchAux rest (i + 1)
        else lintMismatchAux rest (i + 1)

/-- lint_mismatched_stitch_count in src/lint.rs. -/
def lintMismatchedStitchCount (rounds : List Instruction) : List Lint :=
  if rounds.length < 2 then [] else lintMismatchAux rounds 0

/-- lint_rounds in src/lint.rs: the mismatch findings, then the first-round
finding if any. -/
def lintRounds (rounds : List Instruction) : List Lint :=
  lintMismatchedStitchCount rounds ++
    (match lintNonzeroFirstRoundInput rounds with
     | some l => [l]
     | none => [])

/-- The write loop of pretty_format in src/pretty_print.rs: one line per
round, each terminated by a newline, with i the zero-based index. -/
def prettyLines : List Instruction → Nat → List Char
  | [], _ => []
  | r :: rest, i =>
    "Round ".data ++ natDecimal (i + 1) ++ ": ".data ++ renderInst r ++
      " (".data ++ natDecimal (outputCount r) ++ ")".data ++ '\n' ::
      prettyLines rest (i + 1)

/-- pretty_format in src/pretty_print.rs: the write loop followed by
String::pop, which removes the final character (the trailing newline) when
the string is nonempty. -/
def prettyFormat (rounds : List Instruction) : List Char :=
  (prettyLines rounds 0).dropLast

/-! Helper lemmas shared by the claim theorems. -/

theorem outputCountList_eq_sum (l : List Instruction) :
    outputCountList l = (l.map outputCount).sum := by
  induction l with
  | nil => rfl
  | cons x xs ih => simp [outputCountList, ih]

theorem inputCountList_eq_sum (l : List Instruction) :
    inputCountList l = (l.map inputCount).sum := by
  induction l with
  | nil => rfl
  | cons x xs ih => simp [inputCountList, ih]

theorem dropWhile_dropWhile_of_imp (p q : Char → Bool)
    (himp : ∀ c, p c = true → q c = true) (l : List Char) :
    (l.dropWhile p).dropWhile q = l.dropWhile q := by
  induction l with
  | nil => rfl
  | cons c l ih =>
    by_cases hp : p c = true
    · rw [List.dropWhile_cons_of_pos hp, ih,
        List.dropWhile_cons_of_pos (himp c hp)]
    · rw [List.dropWhile_cons_of_neg hp]

/-- C7.  For every instruction and multiplier, both counts of a Repeat are
the multiplier times the inner counts; both counts of a Group are the sums of
the children's counts; IntoMagicRing always consumes zero, whatever the inner
instruction consumes, and produces what the inner instruction produces. -/
theorem c7_count_algebra :
    (∀ i n, outputCount (.Repeat i n) = n * outputCount i) ∧
    (∀ i n, inputCount (.Repeat i n) = n * inputCount i) ∧
    (∀ xs, outputCount (.Group xs) = (xs.map outputCount).sum) ∧
    (∀ xs, inputCount (.Group xs) = (xs.map inputCount).sum) ∧
    (∀ i, inputCount (.IntoMagicRing i) = 0) ∧
    (∀ i, outputCount (.IntoMagicRing i) = outputCount i) := by
  refine ⟨?_, ?_, ?_, ?_, ?_, ?_⟩
  · intro i n; rw [outputCount, Nat.mul_comm]
  · intro i n; rw [inputCount, Nat.mul_comm]
  · intro xs; rw [outputCount, outputCountList_eq_sum]
  · intro xs; rw [inputCount, inputCountList_eq_sum]
  · intro i; rfl
  · intro i; rfl

/-- C5.  The invalid-first-round lint fires exactly on a nonempty round list
whose first round consumes a nonzero count, reporting that count; the empty
list reports nothing; and the spec's example: linting the parse of the source
sc 3 yields exactly one finding, round 1 consuming 3 where 0 was expected. -/
theorem c5_nonzero_first_round :
    (∀ r rest, lintNonzeroFirstRoundInput (r :: rest) =
      if inputCount r ≠ 0 then some (.NonzeroFirstRoundInput (inputCount r))
      else none) ∧
    lintNonzeroFirstRoundInput [] = none ∧
    (parseRounds "sc 3".data).map lintRounds =
      .ok [.NonzeroFirstRoundInput 3] := by
  refine ⟨?_, rfl, by rfl⟩
  intro r rest
  rfl

/-- C1.  The claim says integer-literal overflow is a recoverable parse
failure at the literal's start.  The code instead unwraps str::parse::<u32>:
on the input sc 4294967296 the literal's digit run has the value 2 to the 32,
str::parse::<u32> fails (rustParseU32 returns none) and the unwrap panics.
The count-unbounded model shows the pipeline has no error path there at all:
it parses the source successfully, so the u32 build can only abort, never
return the claimed located Err. -/
theorem c1_overflow_is_a_panic :
    rustParseU32 "4294967296".data = none ∧
    digitsVal "4294967296".data = 4294967296 ∧
    lexNumber ⟨"4294967296".data, 1, 4⟩ =
      some (⟨.Number 4294967296, 1, 4⟩, ⟨[], 1, 14⟩) ∧
    parseRounds "sc 4294967296".data = .ok [.Group [.Repeat .Sc 4294967296]] := by
  refine ⟨by decide, by decide, by decide, by rfl⟩

/-- C4.  Parse errors carry concrete one-based locations: the spec's example
(a stray closing bracket on line two, column seven), trailing garbage on a
round reported at that token's own position, a premature end inside an
unterminated trailing comment reported at the lookahead position, and a
missing skip operand reported at the stream position after the offending
token was consumed. -/
theorem c4_error_locations :
    parseRounds "\nsc 2, ]".data = .error (2, 7) ∧
    parseRounds "sc\nsc sc".data = .error (2, 4) ∧
    parseRounds "sc 3, % foobar".data = .error (1, 7) ∧
    (parseTop (parseFuel (tokenize "sc, skip, sc".data))
        (tokenize "sc, skip, sc".data)).1 = .error (1, 9) := by
  refine ⟨by rfl, by rfl, by rfl, by rfl⟩

/-- C2 (code evaluation).  With a decorative comment round between a producer
of 12 and a consumer of 2, the code emits the mismatch with the skipped-ahead
count (2, read from round 3) but reports the b index as 2, the a index plus
one, not 3, the compared round's true position; with matching counts across
the comment no finding is emitted, confirming the count comparison itself
does skip the decorative round. -/
theorem c2_b_index_is_a_plus_one :
    (parseRounds "ch 12\n% hi %\nsc 2".data).map lintRounds =
      .ok [.MismatchedStitchCount 12 1 2 2] ∧
    (parseRounds "ch 12\n% hi %\nsc 12".data).map lintRounds = .ok [] := by
  exact ⟨by rfl, by rfl⟩

/-- C6.  An unterminated comment rolls the scanner back and yields no token:
lex_comment returns none whenever the lookahead is a percent sign with no
closing percent sign afterwards; on the spec's example the whole lexing step
yields no token and leaves the scanner untouched at line 1 column 1, and
parse_rounds fails exactly there, not at end of input. -/
theorem c6_unterminated_comment :
    (∀ lx : Lexer, peekChar lx = some '%' → '%' ∉ lx.source.tail →
      lexComment lx = none) ∧
    lexNext ⟨"% foobar".data, 1, 1⟩ = (none, ⟨"% foobar".data, 1, 1⟩) ∧
    parseRounds "% foobar".data = .error (1, 1) := by
  refine ⟨?_, by decide, by rfl⟩
  intro lx hpeek hnotail
  match hsrc : lx.source with
  | [] => simp [peekChar, hsrc] at hpeek
  | c :: tail =>
    rw [peekChar, hsrc] at hpeek
    simp at hpeek
    subst hpeek
    rw [hsrc] at hnotail
    simp at hnotail
    have htail : List.takeWhile (fun ch => !decide (ch = '%')) tail = tail := by
      rw [List.takeWhile_eq_self_iff]
      intro a ha
      simp only [Bool.not_eq_true', decide_eq_false_iff_not]
      intro h
      subst h
      exact hnotail ha
    simp [lexComment, peekChar, hsrc, nextChar, htail]

/-- Trailing whitespace in the claim's sense: spaces, tabs and newlines
stripped from the end of the source. -/
def claimTrimTrailing (s : List Char) : List Char :=
  (s.reverse.dropWhile (fun c => c = ' ' || c = '\t' || c = '\n')).reverse

/-- C10.  parse_rounds is invariant under stripping trailing spaces, tabs and
newlines from the source: the tokenizer trims trailing whitespace before
lexing begins, and trimming is idempotent across the two notions of
whitespace. -/
theorem c10_trailing_whitespace_invariant (s : List Char) :
    parseRounds s = parseRounds (claimTrimTrailing s) := by
  have key : trimEndRust (claimTrimTrailing s) = trimEndRust s := by
    unfold trimEndRust claimTrimTrailing
    rw [List.reverse_reverse]
    rw [dropWhile_dropWhile_of_imp _ _ ?imp]
    case imp =>
      intro c hc
      simp only [Bool.or_eq_true, decide_eq_true_eq] at hc
      rcases hc with (h | h) | h <;> subst h <;> decide
  unfold parseRounds tokenize
  rw [key]

/-- Witness for C6: the rollback branch taken on a concrete unterminated
comment. -/
theorem c6_unterminated_comment_witness :
    lexComment ⟨"% x".data, 1, 1⟩ = none :=
  c6_unterminated_comment.1 ⟨"% x".data, 1, 1⟩ (by decide) (by decide)

/-- One report line as the spec words it: Round, the one-based index, a
colon, the canonical serialization of the round, and its output count in
parentheses. -/
def prettyLineSpec (i : Nat) (r : Instruction) : List Char :=
  "Round ".data ++ natDecimal i ++ ": ".data ++ renderInst r ++
    " (".data ++ natDecimal (outputCount r) ++ ")".data

/-- Lines joined by single newline characters, with no trailing newline. -/
def joinNL : List (List Char) → List Char
  | [] => []
  | [x] => x
  | x :: y :: ys => x ++ '\n' :: joinNL (y :: ys)

/-- The report as the spec words it: one line per round with the one-based
index, joined by newlines, empty for an empty round sequence. -/
def prettyFormatSpec (rounds : List Instruction) : List Char :=
  joinNL ((rounds.enumFrom 1).map (fun p => prettyLineSpec p.1 p.2))

/-- Every line produced by the write loop, newline terminator included. -/
def allNL : List (List Char) → List Char
  | [] => []
  | x :: xs => x ++ '\n' :: allNL xs

theorem prettyLines_eq_allNL (rounds : List Instruction) (n : Nat) :
    prettyLines rounds n =
      allNL (((rounds.enumFrom (n + 1)).map (fun p => prettyLineSpec p.1 p.2))) := by
  induction rounds generalizing n with
  | nil => rfl
  | cons r rest ih =>
    rw [List.enumFrom_cons]
    simp [List.map_cons, allNL, prettyLines, prettyLineSpec, ih (n + 1),
      List.append_assoc]

theorem allNL_ne_nil (x : List Char) (xs : List (List Char)) :
    allNL (x :: xs) ≠ [] := by
  rw [allNL]
  rcases x with _ | ⟨c, cs⟩ <;> simp

theorem dropLast_allNL (ls : List (List Char)) :
    (allNL ls).dropLast = joinNL ls := by
  induction ls with
  | nil => rfl
  | cons x xs ih =>
    rcases xs with _ | ⟨y, ys⟩
    · show (x ++ ['\n']).dropLast = joinNL [x]
      rw [List.dropLast_append_of_ne_nil _ (by simp)]
      simp [joinNL]
    · rw [allNL, joinNL, ← ih]
      rw [show ('\n' :: allNL (y :: ys)) = ['\n'] ++ allNL (y :: ys) by rfl]
      rw [← List.append_assoc,
        List.dropLast_append_of_ne_nil _ (allNL_ne_nil y ys)]
      simp [List.append_assoc]

/-- C9.  pretty_format produces, for every round sequence, exactly one line
per round of the shape Round i colon serialized-round parenthesized-output,
with i the one-based index, the lines joined by newlines with no trailing
newline, and the empty string for the empty sequence. -/
theorem c9_pretty_format (rounds : List Instruction) :
    prettyFormat rounds = prettyFormatSpec rounds := by
  rw [prettyFormat, prettyFormatSpec, prettyLines_eq_allNL rounds 0,
    dropLast_allNL]

mutual

/-- No Group node anywhere in the tree has zero children. -/
def noEmptyGroup : Instruction → Bool
  | .IntoMagicRing i => noEmptyGroup i
  | .Group l => !l.isEmpty && noEmptyGroupList l
  | .Repeat i _ => noEmptyGroup i
  | _ => true

/-- noEmptyGroup over every member of a list. -/
def noEmptyGroupList : List Instruction → Bool
  | [] => true
  | x :: xs => noEmptyGroup x && noEmptyGroupList xs

end

theorem noEmptyGroupList_iff (l : List Instruction) :
    noEmptyGroupList l = true ↔ ∀ x ∈ l, noEmptyGroup x = true := by
  induction l with
  | nil => simp [noEmptyGroupList]
  | cons x xs ih => simp [noEmptyGroupList, ih]

/-- The in mr step returns the instruction unchanged or wrapped in
IntoMagicRing. -/
theorem maybeParseSuffixMr_cases (ts : TokenStream) (i : Instruction) :
    (maybeParseSuffixMr ts i).1 = i ∨
    (maybeParseSuffixMr ts i).1 = .IntoMagicRing i := by
  unfold maybeParseSuffixMr
  repeat' split
  all_goals first
    | exact Or.inl rfl
    | exact Or.inr rfl

/-- maybe_parse_suffix returns the instruction unchanged or wrapped by
Repeat, by IntoMagicRing, or by both in that order. -/
theorem maybeParseSuffix_cases (ts : TokenStream) (i : Instruction) :
    (maybeParseSuffix ts i).1 = i ∨
    (∃ n, (maybeParseSuffix ts i).1 = .Repeat i n) ∨
    (maybeParseSuffix ts i).1 = .IntoMagicRing i ∨
    (∃ n, (maybeParseSuffix ts i).1 = .IntoMagicRing (.Repeat i n)) := by
  unfold maybeParseSuffix
  repeat' split
  all_goals first
    | (rcases maybeParseSuffixMr_cases _ i with h | h
       · exact Or.inl h
       · exact Or.inr (Or.inr (Or.inl h)))
    | (rcases maybeParseSuffixMr_cases _ (Instruction.Repeat i _) with h | h
       · exact Or.inr (Or.inl ⟨_, h⟩)
       · exact Or.inr (Or.inr (Or.inr ⟨_, h⟩)))

theorem maybeParseSuffix_noEmpty (ts : TokenStream) (i : Instruction) :
    noEmptyGroup (maybeParseSuffix ts i).1 = noEmptyGroup i := by
  rcases maybeParseSuffix_cases ts i with h | ⟨n, h⟩ | h | ⟨n, h⟩ <;>
    rw [h] <;> rfl

theorem okSuffixed_noEmpty (ts ts' : TokenStream) (K i : Instruction)
    (h : okSuffixed ts K = (.ok i, ts')) (hK : noEmptyGroup K = true) :
    noEmptyGroup i = true := by
  rw [okSuffixed] at h
  have hi : i = (maybeParseSuffix ts K).1 := by
    have := congrArg Prod.fst h
    simpa using this.symm
  rw [hi, maybeParseSuffix_noEmpty]
  exact hK

theorem parse_noEmpty (f : Nat) :
    (∀ ts i ts', parseInst f ts = (.ok i, ts') → noEmptyGroup i = true) ∧
    (∀ ts acc g ts', parseGroupAux f ts acc = (.ok g, ts') →
      (∀ x ∈ acc, noEmptyGroup x = true) →
      ∃ l, g = .Group l ∧ l ≠ [] ∧ ∀ x ∈ l, noEmptyGroup x = true) := by
  induction f with
  | zero =>
    constructor
    · intro ts i ts' h
      simp [parseInst] at h
    · intro ts acc g ts' h _
      simp [parseGroupAux] at h
  | succ f ih =>
    obtain ⟨ihInst, ihGroup⟩ := ih
    constructor
    · intro ts i ts' h
      rw [parseInst] at h
      rcases hn : streamNext ts with ⟨t?, ts1⟩
      rw [hn] at h
      rcases t? with _ | t
      · simp at h
      · simp only [] at h
        cases hk : t.kind <;> rw [hk] at h
        case Ch => exact okSuffixed_noEmpty _ _ _ _ h rfl
        case Sc => exact okSuffixed_noEmpty _ _ _ _ h rfl
        case Fpsc => exact okSuffixed_noEmpty _ _ _ _ h rfl
        case Bpsc => exact okSuffixed_noEmpty _ _ _ _ h rfl
        case Blsc => exact okSuffixed_noEmpty _ _ _ _ h rfl
        case Inc => exact okSuffixed_noEmpty _ _ _ _ h rfl
        case Flinc => exact okSuffixed_noEmpty _ _ _ _ h rfl
        case Blinc => exact okSuffixed_noEmpty _ _ _ _ h rfl
        case Dec => exact okSuffixed_noEmpty _ _ _ _ h rfl
        case Tch => simp at h
        case InMr => simp at h
        case Number => simp at h
        case Newline => simp at h
        case RBracket => simp at h
        case Comma => simp at h
        case Comment s =>
          simp at h
          rw [← h.1]
          rfl
        case Skip =>
          simp only [] at h
          rcases hn2 : streamNext ts1 with ⟨t2?, ts2⟩
          rw [hn2] at h
          rcases t2? with _ | t2
          · simp at h
          · simp only [] at h
            cases hk2 : t2.kind <;> rw [hk2] at h <;> simp at h
            case Number n =>
              rw [← h.1]
              rfl
        case LBracket =>
          simp only [] at h
          rcases hg : parseGroupAux f ts1 [] with ⟨rg, ts2⟩
          rw [hg] at h
          rcases rg with e | g
          · simp at h
          · simp only [] at h
            rcases hn2 : streamNext ts2 with ⟨t2?, ts3⟩
            rw [hn2] at h
            rcases t2? with _ | t2
            · simp at h
            · simp only [] at h
              by_cases hrb : t2.kind = .RBracket
              · rw [if_pos hrb] at h
                obtain ⟨l, hl, hne, hall⟩ :=
                  ihGroup ts1 [] g ts2 hg (by intro x hx; cases hx)
                refine okSuffixed_noEmpty _ _ _ _ h ?_
                rw [hl]
                show (!l.isEmpty && noEmptyGroupList l) = true
                simp [List.isEmpty_iff, hne, (noEmptyGroupList_iff l).mpr hall]
              · rw [if_neg hrb] at h
                simp at h
    · intro ts acc g ts' h hacc
      rw [parseGroupAux] at h
      rcases hi : parseInst f ts with ⟨ri, ts1⟩
      rw [hi] at h
      rcases ri with e | i
      · simp at h
      · simp only [] at h
        rcases hp : streamPeek ts1 with ⟨k, ts2⟩
        rw [hp] at h
        have hacc1 : ∀ x ∈ acc ++ [i], noEmptyGroup x = true := by
          intro x hx
          rcases List.mem_append.mp hx with hx | hx
          · exact hacc x hx
          · rw [List.mem_singleton.mp hx]
            exact ihInst ts i ts1 hi
        rcases k with _ | t
        · simp only [] at h
          simp at h
          refine ⟨acc ++ [i], h.1.symm, by simp, hacc1⟩
        · simp only [] at h
          by_cases hc : t.kind = .Comma
          · rw [if_pos hc] at h
            exact ihGroup _ _ _ _ h hacc1
          · rw [if_neg hc] at h
            simp at h
            refine ⟨acc ++ [i], h.1.symm, by simp, hacc1⟩

/-- A round as parse produces it: a Group node with at least one child and
no empty Group anywhere below. -/
def GoodRound (x : Instruction) : Prop :=
  (∃ l, x = .Group l ∧ l ≠ []) ∧ noEmptyGroup x = true

theorem parseRoundsAux_good (f : Nat) :
    ∀ ts acc res ts1, parseRoundsAux f ts acc = (.ok res, ts1) →
      (∀ x ∈ acc, GoodRound x) → ∀ x ∈ res, GoodRound x := by
  induction f with
  | zero =>
    intro ts acc res ts1 h hacc
    simp [parseRoundsAux] at h
  | succ f ih =>
    intro ts acc res ts1 h hacc
    rw [parseRoundsAux] at h
    rcases hp : streamPeek ts with ⟨k, tsa⟩
    rw [hp] at h
    rcases k with _ | t
    · simp only [] at h
      simp at h
      rw [← h.1]
      exact hacc
    · simp only [] at h
      rcases hg : parseGroupAux f tsa [] with ⟨rg, tsb⟩
      rw [hg] at h
      rcases rg with e | g
      · simp at h
      · simp only [] at h
        rcases hp2 : streamPeek tsb with ⟨k2, tsc⟩
        rw [hp2] at h
        simp only [] at h
        split at h
        · simp at h
        · refine ih _ _ _ _ h ?_
          intro x hx
          rcases List.mem_append.mp hx with hx | hx
          · exact hacc x hx
          · rw [List.mem_singleton.mp hx]
            obtain ⟨l, hl, hne, hall⟩ :=
              (parse_noEmpty f).2 tsa [] g tsb hg (by intro x hx; cases hx)
            refine ⟨⟨l, hl, hne⟩, ?_⟩
            rw [hl]
            show (!l.isEmpty && noEmptyGroupList l) = true
            simp [List.isEmpty_iff, hne, (noEmptyGroupList_iff l).mpr hall]

/-- C8.  Every round a successful parse_rounds returns is a Group node with
at least one child, no Group of length zero occurs anywhere in any returned
tree, and a bracketed group with exactly one member stays a Group node of
length one rather than being unwrapped. -/
theorem c8_rounds_are_nonempty_groups :
    (∀ source r, parseRounds source = .ok r → ∀ x ∈ r,
      (∃ l, x = .Group l ∧ l ≠ []) ∧ noEmptyGroup x = true) ∧
    parseRounds "[sc] 2".data = .ok [.Group [.Repeat (.Group [.Sc]) 2]] := by
  constructor
  · intro source r h x hx
    rw [parseRounds] at h
    rcases hp : parseTop (parseFuel (tokenize source)) (tokenize source)
      with ⟨res, ts2⟩
    rw [hp] at h
    simp only [] at h
    split at h
    · rw [parseTop] at hp
      rw [h] at hp
      exact parseRoundsAux_good _ _ _ _ _ hp (by intro y hy; cases hy) x hx
    · simp at h
  · rfl

/-- Witness for C8 at the concrete parse of the source sc. -/
theorem c8_rounds_are_nonempty_groups_witness :
    (∃ l, Instruction.Group [Instruction.Sc] = .Group l ∧ l ≠ []) ∧
    noEmptyGroup (.Group [.Sc]) = true :=
  c8_rounds_are_nonempty_groups.1 "sc".data [.Group [.Sc]] (by rfl)
    (.Group [.Sc]) (List.mem_singleton.mpr rfl)

/-! Decimal rendering facts used by the round-trip proof. -/

theorem digitsVal_append_digit (l : List Char) (c : Char) :
    digitsVal (l ++ [c]) = 10 * digitsVal l + (c.toNat - 48) := by
  rw [digitsVal, digitsVal, List.foldl_append]
  rfl

theorem natDecimalAux_spec (f n : Nat) (hf : n ≤ f) :
    digitsVal (natDecimalAux f n) = n ∧
    (∀ c ∈ natDecimalAux f n, isDigitChar c = true) ∧
    (n ≠ 0 → natDecimalAux f n ≠ []) := by
  induction f generalizing n with
  | zero =>
    interval_cases n
    simp [natDecimalAux, digitsVal]
  | succ f ih =>
    by_cases hn : n = 0
    · subst hn
      simp [natDecimalAux, digitsVal]
    · rw [natDecimalAux, if_neg hn]
      have hdiv : n / 10 ≤ f := by
        have h1 : n / 10 < n := Nat.div_lt_self (Nat.pos_of_ne_zero hn) (by omega)
        omega
      obtain ⟨ihv, ihd, _⟩ := ih (n / 10) hdiv
      refine ⟨?_, ?_, fun _ => by simp⟩
      · rw [digitsVal_append_digit, ihv]
        have hm : n % 10 < 10 := Nat.mod_lt n (by omega)
        have : (Char.ofNat (48 + n % 10)).toNat = 48 + n % 10 := by
          interval_cases h : n % 10 <;> decide
        rw [this]
        omega
      · intro c hc
        rcases List.mem_append.mp hc with hc | hc
        · exact ihd c hc
        · have : c = Char.ofNat (48 + n % 10) := by simpa using hc
          subst this
          have hm : n % 10 < 10 := Nat.mod_lt n (by omega)
          rw [isDigitChar]
          have : (Char.ofNat (48 + n % 10)).toNat = 48 + n % 10 := by
            interval_cases h : n % 10 <;> decide
          rw [this]
          simp
          omega

theorem digitsVal_natDecimal (n : Nat) : digitsVal (natDecimal n) = n := by
  rw [natDecimal]
  by_cases hn : n = 0
  · subst hn; rfl
  · rw [if_neg hn]
    exact (natDecimalAux_spec n n le_rfl).1

theorem natDecimal_digits (n : Nat) :
    ∀ c ∈ natDecimal n, isDigitChar c = true := by
  rw [natDecimal]
  by_cases hn : n = 0
  · subst hn; simp; rfl
  · rw [if_neg hn]
    exact (natDecimalAux_spec n n le_rfl).2.1

theorem natDecimal_ne_nil (n : Nat) : natDecimal n ≠ [] := by
  rw [natDecimal]
  by_cases hn : n = 0
  · subst hn; simp
  · rw [if_neg hn]
    exact (natDecimalAux_spec n n le_rfl).2.2 hn

/-! Whitespace-trimming facts used for comment payloads in the round-trip
proof. -/

theorem dropWhile_head?_not (p : Char → Bool) (l : List Char) (a : Char)
    (h : (l.dropWhile p).head? = some a) : p a = false := by
  induction l with
  | nil => simp at h
  | cons c cs ih =>
    by_cases hc : p c = true
    · rw [List.dropWhile_cons_of_pos hc] at h
      exact ih h
    · rw [List.dropWhile_cons_of_neg hc] at h
      simp at h
      rw [← h]
      simpa using hc

theorem dropWhile_eq_self_of_head (p : Char → Bool) (l : List Char)
    (h : ∀ a, l.head? = some a → p a = false) : l.dropWhile p = l := by
  cases l with
  | nil => rfl
  | cons c cs => exact List.dropWhile_cons_of_neg (by simp [h c rfl])

theorem head_not_of_dropWhile_self (p : Char → Bool) (c : Char) (s : List Char)
    (h : (c :: s).dropWhile p = c :: s) : p c = false := by
  by_cases hc : p c = true
  · rw [List.dropWhile_cons_of_pos hc] at h
    have := congrArg List.length h
    have hle := (List.dropWhile_sublist (l := s) p).length_le
    simp at this
    omega
  · simpa using hc

theorem dropWhile_getLast? (p : Char → Bool) (l : List Char)
    (h : l.dropWhile p ≠ []) : (l.dropWhile p).getLast? = l.getLast? := by
  obtain ⟨pre, hpre⟩ := List.dropWhile_suffix (l := l) p
  conv_rhs => rw [← hpre]
  rw [List.getLast?_append_of_ne_nil _ h]

/-- A character list with no leading and no trailing Rust whitespace (the
shape str::trim always produces and leaves fixed). -/
def NoWS (s : List Char) : Prop :=
  s.dropWhile isRustWhitespace = s ∧
  s.reverse.dropWhile isRustWhitespace = s.reverse

theorem trimChars_noWS (l : List Char) : NoWS (trimChars l) := by
  unfold trimChars NoWS
  constructor
  · apply dropWhile_eq_self_of_head
    intro a ha
    rw [List.head?_reverse] at ha
    have hBne : (l.dropWhile isRustWhitespace).reverse.dropWhile isRustWhitespace ≠ [] := by
      intro hn
      rw [hn] at ha
      simp at ha
    rw [dropWhile_getLast? _ _ hBne] at ha
    rw [List.getLast?_reverse] at ha
    exact dropWhile_head?_not _ _ _ ha
  · rw [List.reverse_reverse]
    exact dropWhile_dropWhile_of_imp _ _ (fun c h => h) _

theorem mem_trimChars (l : List Char) (a : Char) (h : a ∈ trimChars l) :
    a ∈ l := by
  unfold trimChars at h
  rw [List.mem_reverse] at h
  have h2 := (List.dropWhile_sublist (l := (l.dropWhile isRustWhitespace).reverse)
    isRustWhitespace).subset h
  rw [List.mem_reverse] at h2
  exact (List.dropWhile_sublist (l := l) isRustWhitespace).subset h2

theorem trimChars_eq_self_of_noWS (s : List Char) (h : NoWS s) :
    trimChars s = s := by
  unfold trimChars
  rw [h.1, h.2, List.reverse_reverse]

theorem trimChars_space_wrap (s : List Char) (h : NoWS s) :
    trimChars (' ' :: (s ++ [' '])) = s := by
  have h1 : trimChars (' ' :: (s ++ [' '])) = trimChars (s ++ [' ']) := by
    unfold trimChars
    rw [List.dropWhile_cons_of_pos (by decide)]
  rw [h1]
  cases s with
  | nil => decide
  | cons c s' =>
    have hc : isRustWhitespace c = false := head_not_of_dropWhile_self _ _ _ h.1
    have h2 : ((c :: s') ++ [' ']).dropWhile isRustWhitespace = (c :: s') ++ [' '] :=
      List.dropWhile_cons_of_neg (by simp [hc])
    unfold trimChars
    rw [h2]
    have h3 : ((c :: s') ++ [' ']).reverse = ' ' :: (c :: s').reverse := by
      simp
    rw [h3, List.dropWhile_cons_of_pos (by decide), h.2, List.reverse_reverse]

theorem takeWhile_append_all (p : Char → Bool) (l1 l2 : List Char)
    (h : ∀ x ∈ l1, p x = true) :
    (l1 ++ l2).takeWhile p = l1 ++ l2.takeWhile p := by
  induction l1 with
  | nil => simp
  | cons c cs ih =>
    simp only [List.cons_append, List.takeWhile_cons, h c (by simp)]
    simp [ih (fun x hx => h x (by simp [hx]))]

theorem takeWhile_nil_of_head (p : Char → Bool) (l : List Char)
    (h : ∀ a, l.head? = some a → p a = false) : l.takeWhile p = [] := by
  cases l with
  | nil => rfl
  | cons c cs =>
    rw [List.takeWhile_cons_of_neg]
    simp [h c rfl]

/-! Character-list forms of the string literals in the embedding, and
single-token lexing lemmas used by the round-trip proof. -/

theorem data_in_mr : "in mr".data = ['i', 'n', ' ', 'm', 'r'] := rfl
theorem data_blinc : "blinc".data = ['b', 'l', 'i', 'n', 'c'] := rfl
theorem data_flinc : "flinc".data = ['f', 'l', 'i', 'n', 'c'] := rfl
theorem data_fpsc : "fpsc".data = ['f', 'p', 's', 'c'] := rfl
theorem data_bpsc : "bpsc".data = ['b', 'p', 's', 'c'] := rfl
theorem data_blsc : "blsc".data = ['b', 'l', 's', 'c'] := rfl
theorem data_skip : "skip".data = ['s', 'k', 'i', 'p'] := rfl
theorem data_inc : "inc".data = ['i', 'n', 'c'] := rfl
theorem data_dec : "dec".data = ['d', 'e', 'c'] := rfl
theorem data_tch : "tch".data = ['t', 'c', 'h'] := rfl
theorem data_sc : "sc".data = ['s', 'c'] := rfl
theorem data_ch : "ch".data = ['c', 'h'] := rfl
theorem data_sp_in_mr : " in mr".data = [' ', 'i', 'n', ' ', 'm', 'r'] := rfl
theorem data_cl_in_mr : "] in mr".data = [']', ' ', 'i', 'n', ' ', 'm', 'r'] := rfl
theorem data_skip_sp : "skip ".data = ['s', 'k', 'i', 'p', ' '] := rfl

theorem consumeChars_cols (l : List Char) :
    ∀ rest ln co, (∀ c ∈ l, c ≠ '\n') →
      consumeChars l.length ⟨l ++ rest, ln, co⟩ = ⟨rest, ln, co + l.length⟩ := by
  induction l with
  | nil => intro rest ln co _; simp [consumeChars]
  | cons c cs ih =>
    intro rest ln co h
    have hc : c ≠ '\n' := h c (by simp)
    show consumeChars (cs.length + 1) ⟨c :: (cs ++ rest), ln, co⟩ = _
    rw [consumeChars]
    have hn : (nextChar ⟨c :: (cs ++ rest), ln, co⟩).2 = ⟨cs ++ rest, ln, co + 1⟩ := by
      simp [nextChar, hc]
    rw [hn, ih rest ln (co + 1) (fun x hx => h x (by simp [hx]))]
    simp only [List.length_cons, Lexer.mk.injEq, true_and]
    omega

theorem consumeChars_src (l : List Char) :
    ∀ rest ln co, ∃ ln' co',
      consumeChars l.length ⟨l ++ rest, ln, co⟩ = ⟨rest, ln', co'⟩ := by
  induction l with
  | nil => intro rest ln co; exact ⟨ln, co, by simp [consumeChars]⟩
  | cons c cs ih =>
    intro rest ln co
    show ∃ ln' co', consumeChars (cs.length + 1) ⟨c :: (cs ++ rest), ln, co⟩ = _
    rw [consumeChars]
    by_cases hc : c = '\n'
    · have hn : (nextChar ⟨c :: (cs ++ rest), ln, co⟩).2 = ⟨cs ++ rest, ln + 1, 1⟩ := by
        simp [nextChar, hc]
      rw [hn]
      exact ih rest (ln + 1) 1
    · have hn : (nextChar ⟨c :: (cs ++ rest), ln, co⟩).2 = ⟨cs ++ rest, ln, co + 1⟩ := by
        simp [nextChar, hc]
      rw [hn]
      exact ih rest ln (co + 1)


theorem lexNext_kw_ch (rest : List Char) (ln co : Nat) :
    lexNext ⟨['c', 'h'] ++ rest, ln, co⟩ =
      (some ⟨.Ch, ln, co⟩, ⟨rest, ln, co + 2⟩) := by
  simp [lexNext, eatWhitespace, eatWhitespaceGo, lexSymbol, peekChar,
    lexKeyword, keywordTable, tryKeywords, eatString, List.isPrefixOf,
    consumeChars, nextChar, data_in_mr, data_blinc, data_flinc, data_fpsc,
    data_bpsc, data_blsc, data_skip, data_inc, data_dec, data_tch, data_sc,
    data_ch]

theorem lexNext_kw_sc (rest : List Char) (ln co : Nat) :
    lexNext ⟨['s', 'c'] ++ rest, ln, co⟩ =
      (some ⟨.Sc, ln, co⟩, ⟨rest, ln, co + 2⟩) := by
  simp [lexNext, eatWhitespace, eatWhitespaceGo, lexSymbol, peekChar,
    lexKeyword, keywordTable, tryKeywords, eatString, List.isPrefixOf,
    consumeChars, nextChar, data_in_mr, data_blinc, data_flinc, data_fpsc,
    data_bpsc, data_blsc, data_skip, data_inc, data_dec, data_tch, data_sc,
    data_ch]

theorem lexNext_kw_fpsc (rest : List Char) (ln co : Nat) :
    lexNext ⟨['f', 'p', 's', 'c'] ++ rest, ln, co⟩ =
      (some ⟨.Fpsc, ln, co⟩, ⟨rest, ln, co + 4⟩) := by
  simp [lexNext, eatWhitespace, eatWhitespaceGo, lexSymbol, peekChar,
    lexKeyword, keywordTable, tryKeywords, eatString, List.isPrefixOf,
    consumeChars, nextChar, data_in_mr, data_blinc, data_flinc, data_fpsc,
    data_bpsc, data_blsc, data_skip, data_inc, data_dec, data_tch, data_sc,
    data_ch]

theorem lexNext_kw_bpsc (rest : List Char) (ln co : Nat) :
    lexNext ⟨['b', 'p', 's', 'c'] ++ rest, ln, co⟩ =
      (some ⟨.Bpsc, ln, co⟩, ⟨rest, ln, co + 4⟩) := by
  simp [lexNext, eatWhitespace, eatWhitespaceGo, lexSymbol, peekChar,
    lexKeyword, keywordTable, tryKeywords, eatString, List.isPrefixOf,
    consumeChars, nextChar, data_in_mr, data_blinc, data_flinc, data_fpsc,
    data_bpsc, data_blsc, data_skip, data_inc, data_dec, data_tch, data_sc,
    data_ch]

theorem lexNext_kw_blsc (rest : List Char) (ln co : Nat) :
    lexNext ⟨['b', 'l', 's', 'c'] ++ rest, ln, co⟩ =
      (some ⟨.Blsc, ln, co⟩, ⟨rest, ln, co + 4⟩) := by
  simp [lexNext, eatWhitespace, eatWhitespaceGo, lexSymbol, peekChar,
    lexKeyword, keywordTable, tryKeywords, eatString, List.isPrefixOf,
    consumeChars, nextChar, data_in_mr, data_blinc, data_flinc, data_fpsc,
    data_bpsc, data_blsc, data_skip, data_inc, data_dec, data_tch, data_sc,
    data_ch]

theorem lexNext_kw_inc (rest : List Char) (ln co : Nat) :
    lexNext ⟨['i', 'n', 'c'] ++ rest, ln, co⟩ =
      (some ⟨.Inc, ln, co⟩, ⟨rest, ln, co + 3⟩) := by
  simp [lexNext, eatWhitespace, eatWhitespaceGo, lexSymbol, peekChar,
    lexKeyword, keywordTable, tryKeywords, eatString, List.isPrefixOf,
    consumeChars, nextChar, data_in_mr, data_blinc, data_flinc, data_fpsc,
    data_bpsc, data_blsc, data_skip, data_inc, data_dec, data_tch, data_sc,
    data_ch]

theorem lexNext_kw_flinc (rest : List Char) (ln co : Nat) :
    lexNext ⟨['f', 'l', 'i', 'n', 'c'] ++ rest, ln, co⟩ =
      (some ⟨.Flinc, ln, co⟩, ⟨rest, ln, co + 5⟩) := by
  simp [lexNext, eatWhitespace, eatWhitespaceGo, lexSymbol, peekChar,
    lexKeyword, keywordTable, tryKeywords, eatString, List.isPrefixOf,
    consumeChars, nextChar, data_in_mr, data_blinc, data_flinc, data_fpsc,
    data_bpsc, data_blsc, data_skip, data_inc, data_dec, data_tch, data_sc,
    data_ch]

theorem lexNext_kw_blinc (rest : List Char) (ln co : Nat) :
    lexNext ⟨['b', 'l', 'i', 'n', 'c'] ++ rest, ln, co⟩ =
      (some ⟨.Blinc, ln, co⟩, ⟨rest, ln, co + 5⟩) := by
  simp [lexNext, eatWhitespace, eatWhitespaceGo, lexSymbol, peekChar,
    lexKeyword, keywordTable, tryKeywords, eatString, List.isPrefixOf,
    consumeChars, nextChar, data_in_mr, data_blinc, data_flinc, data_fpsc,
    data_bpsc, data_blsc, data_skip, data_inc, data_dec, data_tch, data_sc,
    data_ch]

theorem lexNext_kw_dec (rest : List Char) (ln co : Nat) :
    lexNext ⟨['d', 'e', 'c'] ++ rest, ln, co⟩ =
      (some ⟨.Dec, ln, co⟩, ⟨rest, ln, co + 3⟩) := by
  simp [lexNext, eatWhitespace, eatWhitespaceGo, lexSymbol, peekChar,
    lexKeyword, keywordTable, tryKeywords, eatString, List.isPrefixOf,
    consumeChars, nextChar, data_in_mr, data_blinc, data_flinc, data_fpsc,
    data_bpsc, data_blsc, data_skip, data_inc, data_dec, data_tch, data_sc,
    data_ch]

theorem lexNext_kw_skipkw (rest : List Char) (ln co : Nat) :
    lexNext ⟨['s', 'k', 'i', 'p'] ++ rest, ln, co⟩ =
      (some ⟨.Skip, ln, co⟩, ⟨rest, ln, co + 4⟩) := by
  simp [lexNext, eatWhitespace, eatWhitespaceGo, lexSymbol, peekChar,
    lexKeyword, keywordTable, tryKeywords, eatString, List.isPrefixOf,
    consumeChars, nextChar, data_in_mr, data_blinc, data_flinc, data_fpsc,
    data_bpsc, data_blsc, data_skip, data_inc, data_dec, data_tch, data_sc,
    data_ch]

theorem lexNext_kw_inmr (rest : List Char) (ln co : Nat) :
    lexNext ⟨['i', 'n', ' ', 'm', 'r'] ++ rest, ln, co⟩ =
      (some ⟨.InMr, ln, co⟩, ⟨rest, ln, co + 5⟩) := by
  simp [lexNext, eatWhitespace, eatWhitespaceGo, lexSymbol, peekChar,
    lexKeyword, keywordTable, tryKeywords, eatString, List.isPrefixOf,
    consumeChars, nextChar, data_in_mr, data_blinc, data_flinc, data_fpsc,
    data_bpsc, data_blsc, data_skip, data_inc, data_dec, data_tch, data_sc,
    data_ch]

theorem lexNext_newline (rest : List Char) (ln co : Nat) :
    lexNext ⟨'\n' :: rest, ln, co⟩ =
      (some ⟨.Newline, ln, co⟩, ⟨rest, ln + 1, 1⟩) := by
  simp [lexNext, eatWhitespace, eatWhitespaceGo, lexSymbol, peekChar, nextChar]

theorem lexNext_lbracket (rest : List Char) (ln co : Nat) :
    lexNext ⟨'[' :: rest, ln, co⟩ =
      (some ⟨.LBracket, ln, co⟩, ⟨rest, ln, co + 1⟩) := by
  simp [lexNext, eatWhitespace, eatWhitespaceGo, lexSymbol, peekChar, nextChar]

theorem lexNext_rbracket (rest : List Char) (ln co : Nat) :
    lexNext ⟨']' :: rest, ln, co⟩ =
      (some ⟨.RBracket, ln, co⟩, ⟨rest, ln, co + 1⟩) := by
  simp [lexNext, eatWhitespace, eatWhitespaceGo, lexSymbol, peekChar, nextChar]

theorem lexNext_comma (rest : List Char) (ln co : Nat) :
    lexNext ⟨',' :: rest, ln, co⟩ =
      (some ⟨.Comma, ln, co⟩, ⟨rest, ln, co + 1⟩) := by
  simp [lexNext, eatWhitespace, eatWhitespaceGo, lexSymbol, peekChar, nextChar]

theorem lexNext_space (src : List Char) (ln co : Nat) :
    lexNext ⟨' ' :: src, ln, co⟩ = lexNext ⟨src, ln, co + 1⟩ := by
  simp [lexNext, eatWhitespace, eatWhitespaceGo]

theorem lexNext_nil (ln co : Nat) :
    lexNext ⟨[], ln, co⟩ = (none, ⟨[], ln, co⟩) := by
  simp [lexNext, eatWhitespace, eatWhitespaceGo, lexSymbol, peekChar, lexKeyword,
    keywordTable, tryKeywords, eatString, List.isPrefixOf, lexNumber,
    List.takeWhile, lexComment]

theorem digit_head_facts (d : Char) (hd : isDigitChar d = true) :
    d ≠ ' ' ∧ d ≠ '\t' ∧ d ≠ '\n' ∧ d ≠ '[' ∧ d ≠ ']' ∧ d ≠ ',' ∧
    'i' ≠ d ∧ 'b' ≠ d ∧ 'f' ≠ d ∧ 's' ≠ d ∧ 'd' ≠ d ∧ 't' ≠ d ∧ 'c' ≠ d := by
  rw [isDigitChar] at hd
  simp only [Bool.and_eq_true, decide_eq_true_eq] at hd
  obtain ⟨h1, h2⟩ := hd
  refine ⟨?_, ?_, ?_, ?_, ?_, ?_, ?_, ?_, ?_, ?_, ?_, ?_, ?_⟩ <;>
    (intro h; subst h; revert h1 h2; decide)

theorem lexNext_number (n : Nat) (rest : List Char) (ln co : Nat)
    (hrest : ∀ a, rest.head? = some a → isDigitChar a = false) :
    lexNext ⟨natDecimal n ++ rest, ln, co⟩ =
      (some ⟨.Number n, ln, co⟩, ⟨rest, ln, co + (natDecimal n).length⟩) := by
  obtain ⟨d, ds, hnd⟩ : ∃ d ds, natDecimal n = d :: ds := by
    cases h : natDecimal n with
    | nil => exact absurd h (natDecimal_ne_nil n)
    | cons d ds => exact ⟨d, ds, rfl⟩
  have hd : isDigitChar d = true := natDecimal_digits n d (by rw [hnd]; simp)
  obtain ⟨w1, w2, w3, w4, w5, w6, k1, k2, k3, k4, k5, k6, k7⟩ :=
    digit_head_facts d hd
  have hdig : ∀ c ∈ natDecimal n, isDigitChar c = true := natDecimal_digits n
  have hnonl : ∀ c ∈ natDecimal n, c ≠ '\n' := by
    intro c hc
    exact (digit_head_facts c (hdig c hc)).2.2.1
  have htake : (natDecimal n ++ rest).takeWhile isDigitChar = natDecimal n := by
    rw [takeWhile_append_all _ _ _ hdig, takeWhile_nil_of_head _ _ hrest,
      List.append_nil]
  have hnum : lexNumber ⟨natDecimal n ++ rest, ln, co⟩ =
      some (⟨.Number n, ln, co⟩, ⟨rest, ln, co + (natDecimal n).length⟩) := by
    rw [lexNumber]
    simp only [htake]
    rw [if_neg (by simp [hnd])]
    rw [digitsVal_natDecimal, consumeChars_cols _ _ _ _ hnonl]
  rw [hnd] at htake hnum ⊢
  simp only [List.cons_append] at htake hnum ⊢
  simp [lexNext, eatWhitespace, eatWhitespaceGo, lexSymbol, peekChar,
    lexKeyword, keywordTable, tryKeywords, eatString, List.isPrefixOf,
    data_in_mr, data_blinc, data_flinc, data_fpsc, data_bpsc, data_blsc,
    data_skip, data_inc, data_dec, data_tch, data_sc, data_ch,
    w1, w2, w3, w4, w5, w6, k1, k2, k3, k4, k5, k6, k7, hnum]

theorem lexNext_comment (s rest : List Char) (ln co : Nat)
    (hs : '%' ∉ s) (hnos : NoWS s) :
    ∃ ln' co', lexNext ⟨'%' :: ' ' :: (s ++ (' ' :: '%' :: rest)), ln, co⟩ =
      (some ⟨.Comment s, ln, co⟩, ⟨rest, ln', co'⟩) := by
  have hq : ∀ x ∈ ' ' :: (s ++ [' ']), (!decide (x = '%')) = true := by
    intro x hx
    simp only [Bool.not_eq_true', decide_eq_false_iff_not]
    intro he
    subst he
    simp at hx
    exact hs hx
  have harr : ' ' :: (s ++ (' ' :: '%' :: rest)) =
      (' ' :: (s ++ [' '])) ++ ('%' :: rest) := by
    simp
  have htake : (' ' :: (s ++ (' ' :: '%' :: rest))).takeWhile
      (fun ch => !decide (ch = '%')) = ' ' :: (s ++ [' ']) := by
    rw [harr, takeWhile_append_all _ _ _ hq]
    rw [takeWhile_nil_of_head]
    · simp
    · intro a ha
      simp only [List.head?_cons, Option.some.injEq] at ha
      simp [← ha]
  obtain ⟨ln', co', hcc⟩ := consumeChars_src (' ' :: (s ++ [' ']) ++ ['%'])
    rest ln (co + 1)
  have hcom : lexComment ⟨'%' :: ' ' :: (s ++ (' ' :: '%' :: rest)), ln, co⟩ =
      some (⟨.Comment s, ln, co⟩, ⟨rest, ln', co'⟩) := by
    rw [lexComment]
    simp only [peekChar, List.head?_cons, if_pos rfl]
    have hnx : (nextChar ⟨'%' :: ' ' :: (s ++ (' ' :: '%' :: rest)), ln, co⟩).2 =
        ⟨' ' :: (s ++ (' ' :: '%' :: rest)), ln, co + 1⟩ := by
      simp [nextChar]
    simp only [hnx]
    have hlen : (' ' :: (s ++ [' '])).length ≠
        (' ' :: (s ++ (' ' :: '%' :: rest))).length := by
      simp
    simp only [ne_eq, decide_not]
    simp only [htake]
    rw [if_neg hlen]
    have htrim : trimChars (' ' :: (s ++ [' '])) = s := by
      have : (' ' :: (s ++ [' '])) = ' ' :: (s ++ [' ']) := rfl
      exact trimChars_space_wrap s hnos
    rw [htrim]
    have hlen2 : (' ' :: (s ++ [' '])).length + 1 =
        (' ' :: (s ++ [' ']) ++ ['%']).length := by simp
    have harr2 : (' ' :: (s ++ (' ' :: '%' :: rest))) =
        (' ' :: (s ++ [' ']) ++ ['%']) ++ rest := by simp
    rw [hlen2, harr2, hcc]
    simp
  have hnum0 : lexNumber ⟨'%' :: ' ' :: (s ++ (' ' :: '%' :: rest)), ln, co⟩ =
      none := by
    rw [lexNumber]
    rw [List.takeWhile_cons_of_neg (by decide)]
    simp
  refine ⟨ln', co', ?_⟩
  simp [lexNext, eatWhitespace, eatWhitespaceGo, lexSymbol, peekChar,
    lexKeyword, keywordTable, tryKeywords, eatString, List.isPrefixOf,
    data_in_mr, data_blinc, data_flinc, data_fpsc, data_bpsc, data_blsc,
    data_skip, data_inc, data_dec, data_tch, data_sc, data_ch, hnum0, hcom]

/-! Stream-level stepping facts for the round-trip proof. -/

theorem streamNext_none_buf (lx : Lexer) :
    streamNext ⟨lx, none⟩ = ((lexNext lx).1, ⟨(lexNext lx).2, none⟩) := rfl

theorem streamPeek_none_buf (lx : Lexer) :
    streamPeek ⟨lx, none⟩ =
      ((lexNext lx).1, ⟨(lexNext lx).2, (lexNext lx).1⟩) := rfl

theorem streamNext_some_buf (lx : Lexer) (t : Token) :
    streamNext ⟨lx, some t⟩ = (some t, ⟨lx, none⟩) := rfl

theorem streamPeek_some_buf (lx : Lexer) (t : Token) :
    streamPeek ⟨lx, some t⟩ = (some t, ⟨lx, some t⟩) := rfl

theorem streamNext_eq_peek (ts : TokenStream) :
    streamNext ts = ((streamPeek ts).1, ⟨(streamPeek ts).2.lx, none⟩) := by
  rcases ts with ⟨lx, _ | t⟩ <;> rfl

theorem eatWhitespaceGo_fix (l : List Char) :
    ∀ ln co, eatWhitespace (eatWhitespaceGo l ln co) = eatWhitespaceGo l ln co := by
  induction l with
  | nil => intro ln co; rfl
  | cons c cs ih =>
    intro ln co
    rw [eatWhitespaceGo]
    by_cases hc : c = ' ' ∨ c = '\t'
    · rw [if_pos hc]
      exact ih ln (co + 1)
    · rw [if_neg hc]
      rw [eatWhitespace, eatWhitespaceGo]
      rw [if_neg hc]

theorem lexNext_none_fix (lx lx1 : Lexer) (h : lexNext lx = (none, lx1)) :
    lexNext lx1 = (none, lx1) := by
  rw [lexNext] at h
  rcases h1 : lexSymbol (eatWhitespace lx) with _ | p
  · rw [h1] at h
    rcases h2 : lexKeyword (eatWhitespace lx) with _ | p
    · rw [h2] at h
      rcases h3 : lexNumber (eatWhitespace lx) with _ | p
      · rw [h3] at h
        rcases h4 : lexComment (eatWhitespace lx) with _ | p
        · rw [h4] at h
          simp at h
          have hm : lx1 = eatWhitespace lx := h.symm
          subst hm
          have hid : eatWhitespace (eatWhitespace lx) = eatWhitespace lx := by
            rw [eatWhitespace]
            exact eatWhitespaceGo_fix _ _ _
          rw [lexNext, hid, h1, h2, h3, h4]
        · rw [h4] at h
          rcases p with ⟨t, l⟩
          simp at h
      · rw [h3] at h
        rcases p with ⟨t, l⟩
        simp at h
    · rw [h2] at h
      rcases p with ⟨t, l⟩
      simp at h
  · rw [h1] at h
    rcases p with ⟨t, l⟩
    simp at h

/-- The shape of a stream that is about to read the given character list:
fresh at it, fresh at it with one leading separator space, or holding the
result of peeking a fresh stream at it. -/
def Looks (ts : TokenStream) (src : List Char) : Prop :=
  ∃ ln co, ts = ⟨⟨src, ln, co⟩, none⟩ ∨ ts = ⟨⟨' ' :: src, ln, co⟩, none⟩ ∨
    ts = (streamPeek ⟨⟨src, ln, co⟩, none⟩).2

theorem looks_fresh (src : List Char) (ln co : Nat) :
    Looks ⟨⟨src, ln, co⟩, none⟩ src :=
  ⟨ln, co, Or.inl rfl⟩

theorem looks_space (src : List Char) (ln co : Nat) :
    Looks ⟨⟨' ' :: src, ln, co⟩, none⟩ src :=
  ⟨ln, co, Or.inr (Or.inl rfl)⟩

theorem looks_peeked (src : List Char) (ln co : Nat) :
    Looks (streamPeek ⟨⟨src, ln, co⟩, none⟩).2 src :=
  ⟨ln, co, Or.inr (Or.inr rfl)⟩

theorem looks_peek (ts : TokenStream) (src : List Char) (h : Looks ts src) :
    ∃ ln co, streamPeek ts = streamPeek ⟨⟨src, ln, co⟩, none⟩ := by
  obtain ⟨ln, co, h⟩ := h
  rcases h with h | h | h
  · exact ⟨ln, co, by rw [h]⟩
  · refine ⟨ln, co + 1, ?_⟩
    rw [h, streamPeek_none_buf, streamPeek_none_buf, lexNext_space]
  · rcases hl : lexNext ⟨src, ln, co⟩ with ⟨t?, lx'⟩
    rcases t? with _ | t
    · refine ⟨ln, co, ?_⟩
      rw [h, streamPeek_none_buf, hl]
      show streamPeek ⟨lx', none⟩ = (none, ⟨lx', none⟩)
      rw [streamPeek_none_buf, lexNext_none_fix _ _ hl]
    · refine ⟨ln, co, ?_⟩
      rw [h, streamPeek_none_buf, hl]
      show streamPeek ⟨lx', some t⟩ = (some t, ⟨lx', some t⟩)
      rw [streamPeek_some_buf]

theorem looks_after_peek (ts : TokenStream) (src : List Char)
    (h : Looks ts src) : Looks (streamPeek ts).2 src := by
  obtain ⟨ln, co, hp⟩ := looks_peek ts src h
  rw [hp]
  exact looks_peeked src ln co

theorem looks_next (ts : TokenStream) (src : List Char) (h : Looks ts src) :
    ∃ ln co, streamNext ts =
      ((lexNext ⟨src, ln, co⟩).1, ⟨(lexNext ⟨src, ln, co⟩).2, none⟩) := by
  obtain ⟨ln, co, hp⟩ := looks_peek ts src h
  refine ⟨ln, co, ?_⟩
  rw [streamNext_eq_peek, hp, streamPeek_none_buf]

mutual

/-- The cores the grammar attaches suffixes to: the nine stitch keywords and
bracketed (or top-level) groups of well-formed instructions. -/
inductive WFCore : Instruction → Prop where
  | ch : WFCore .Ch
  | sc : WFCore .Sc
  | fpsc : WFCore .Fpsc
  | bpsc : WFCore .Bpsc
  | blsc : WFCore .Blsc
  | inc : WFCore .Inc
  | flinc : WFCore .Flinc
  | blinc : WFCore .Blinc
  | dec : WFCore .Dec
  | group (l : List Instruction) : l ≠ [] → WFList l → WFCore (.Group l)

/-- The instructions parse_inst can return: a core with an optional repeat
and an optional magic-ring wrapper in that order, a comment whose payload is
trimmed and free of percent signs, or a skip. -/
inductive WFInst : Instruction → Prop where
  | core (i : Instruction) : WFCore i → WFInst i
  | rep (i : Instruction) (n : Nat) : WFCore i → WFInst (.Repeat i n)
  | mr (i : Instruction) : WFCore i → WFInst (.IntoMagicRing i)
  | mrRep (i : Instruction) (n : Nat) :
      WFCore i → WFInst (.IntoMagicRing (.Repeat i n))
  | comment (s : List Char) : '%' ∉ s → NoWS s → WFInst (.Comment s)
  | skipInst (n : Nat) : WFInst (.Skip n)

/-- Well-formedness of each member of an instruction list. -/
inductive WFList : List Instruction → Prop where
  | nil : WFList []
  | cons (x : Instruction) (l : List Instruction) :
      WFInst x → WFList l → WFList (x :: l)

end

theorem WFList_iff (l : List Instruction) :
    WFList l ↔ ∀ x ∈ l, WFInst x := by
  constructor
  · intro h
    induction l with
    | nil => intro x hx; cases hx
    | cons y m ih =>
      cases h with
      | cons _ _ hy hm =>
        intro x hx
        rcases List.mem_cons.mp hx with hx | hx
        · rw [hx]; exact hy
        · exact ih hm x hx
  · intro h
    induction l with
    | nil => exact WFList.nil
    | cons y m ih =>
      exact WFList.cons y m (h y (by simp))
        (ih (fun x hx => h x (by simp [hx])))

/-- Comment tokens carry trimmed, percent-free payloads. -/
def WFTok (t : Token) : Prop :=
  ∀ s, t.kind = .Comment s → '%' ∉ s ∧ NoWS s

/-- Any token sitting in the lookahead buffer is well formed. -/
def WFTS (ts : TokenStream) : Prop :=
  ∀ t, ts.peeked = some t → WFTok t

theorem wfts_none (ts : TokenStream) (h : ts.peeked = none) : WFTS ts := by
  intro t ht
  rw [h] at ht
  cases ht

theorem streamNext_peeked_none (ts : TokenStream) :
    (streamNext ts).2.peeked = none := by
  rcases ts with ⟨lx, _ | t⟩ <;> rfl

theorem lexSymbol_wf (lx : Lexer) (t : Token) (lx' : Lexer)
    (h : lexSymbol lx = some (t, lx')) : WFTok t := by
  rw [lexSymbol] at h
  rcases hc : peekChar lx with _ | c <;> rw [hc] at h
  · cases h
  · intro s hs
    exfalso
    repeat' split at h
    all_goals simp_all
    all_goals
      rw [← h.1] at hs
      simp at hs

theorem tryKeywords_wf (kws : List (List Char × TokenKind)) (lx : Lexer)
    (t : Token) (lx' : Lexer)
    (hk : ∀ p ∈ kws, ∀ s, p.2 ≠ TokenKind.Comment s)
    (h : tryKeywords kws lx = some (t, lx')) : WFTok t := by
  induction kws with
  | nil => cases h
  | cons p rest ih =>
    rcases p with ⟨s0, k0⟩
    rw [tryKeywords] at h
    rcases he : eatString s0 lx with _ | lx2 <;> rw [he] at h
    · exact ih (fun p hp => hk p (by simp [hp])) h
    · injection h with h
      injection h with h1 h2
      intro s hs
      rw [← h1] at hs
      simp at hs
      exact absurd hs (hk (s0, k0) (by simp) s)

theorem lexNumber_wf (lx : Lexer) (t : Token) (lx' : Lexer)
    (h : lexNumber lx = some (t, lx')) : WFTok t := by
  rw [lexNumber] at h
  split at h
  · cases h
  · injection h with h
    injection h with h1 h2
    intro s hs
    rw [← h1] at hs
    simp at hs

theorem lexComment_wf (lx : Lexer) (t : Token) (lx' : Lexer)
    (h : lexComment lx = some (t, lx')) : WFTok t := by
  rw [lexComment] at h
  rcases hc : peekChar lx with _ | c
  · rw [hc] at h
    cases h
  · rw [hc] at h
    simp only [] at h
    by_cases hcp : c = '%'
    · rw [if_pos hcp] at h
      by_cases hlen :
          (List.takeWhile (fun ch => decide (ch ≠ '%'))
            (nextChar lx).2.source).length = (nextChar lx).2.source.length
      · rw [if_pos hlen] at h
        cases h
      · rw [if_neg hlen] at h
        injection h with h
        injection h with h1 h2
        intro s hs
        rw [← h1] at hs
        simp at hs
        constructor
        · rw [← hs]
          intro hm
          have := List.mem_takeWhile_imp (mem_trimChars _ _ hm)
          simp at this
        · rw [← hs]
          exact trimChars_noWS _
    · rw [if_neg hcp] at h
      cases h

theorem lexNext_wf (lx : Lexer) (t : Token) (lx' : Lexer)
    (h : lexNext lx = (some t, lx')) : WFTok t := by
  rw [lexNext] at h
  rcases h1 : lexSymbol (eatWhitespace lx) with _ | ⟨t1, l1⟩
  · rw [h1] at h
    rcases h2 : lexKeyword (eatWhitespace lx) with _ | ⟨t2, l2⟩
    · rw [h2] at h
      rcases h3 : lexNumber (eatWhitespace lx) with _ | ⟨t3, l3⟩
      · rw [h3] at h
        rcases h4 : lexComment (eatWhitespace lx) with _ | ⟨t4, l4⟩
        · rw [h4] at h
          injection h with ha hb
          cases ha
        · rw [h4] at h
          injection h with ha hb
          injection ha with ha
          rw [← ha]
          exact lexComment_wf _ _ _ h4
      · rw [h3] at h
        injection h with ha hb
        injection ha with ha
        rw [← ha]
        exact lexNumber_wf _ _ _ h3
    · rw [h2] at h
      injection h with ha hb
      injection ha with ha
      rw [← ha]
      refine tryKeywords_wf _ _ _ _ ?_ h2
      intro p hp s
      fin_cases hp <;> simp
  · rw [h1] at h
    injection h with ha hb
    injection ha with ha
    rw [← ha]
    exact lexSymbol_wf _ _ _ h1

theorem streamNext_wf (ts : TokenStream) (t : Token) (ts' : TokenStream)
    (hts : WFTS ts) (h : streamNext ts = (some t, ts')) : WFTok t := by
  rcases ts with ⟨lx, _ | u⟩
  · rw [streamNext_none_buf] at h
    injection h with ha hb
    rcases hl : lexNext lx with ⟨t?, lx2⟩
    rw [hl] at ha
    simp at ha
    rw [ha] at hl
    exact lexNext_wf _ _ _ hl
  · rw [streamNext_some_buf] at h
    injection h with ha hb
    injection ha with ha
    rw [← ha]
    exact hts u rfl

theorem streamPeek_wf (ts : TokenStream) (k : Option Token) (ts' : TokenStream)
    (hts : WFTS ts) (h : streamPeek ts = (k, ts')) :
    WFTS ts' ∧ ∀ t, k = some t → WFTok t := by
  rcases ts with ⟨lx, _ | u⟩
  · rw [streamPeek_none_buf] at h
    injection h with ha hb
    constructor
    · intro t ht
      rw [← hb] at ht
      simp at ht
      rcases hl : lexNext lx with ⟨t?, lx2⟩
      rw [hl] at ht
      simp at ht
      rw [ht] at hl
      exact lexNext_wf _ _ _ hl
    · intro t ht
      rw [ht] at ha
      rcases hl : lexNext lx with ⟨t?, lx2⟩
      rw [hl] at ha
      simp at ha
      rw [ha] at hl
      exact lexNext_wf _ _ _ hl
  · rw [streamPeek_some_buf] at h
    injection h with ha hb
    constructor
    · rw [← hb]
      exact hts
    · intro t ht
      rw [ht] at ha
      injection ha with ha
      rw [← ha]
      exact hts u rfl

theorem maybeParseSuffixMr_wfts (ts : TokenStream) (i : Instruction)
    (hts : WFTS ts) : WFTS (maybeParseSuffixMr ts i).2 := by
  rw [maybeParseSuffixMr.eq_def]
  rcases hp : streamPeek ts with ⟨k, ts1⟩
  have h1 := (streamPeek_wf _ _ _ hts hp).1
  rcases k with _ | t
  · exact h1
  · simp only []
    cases hk : t.kind <;>
      first
        | exact h1
        | exact wfts_none _ (streamNext_peeked_none _)

theorem maybeParseSuffix_wfts (ts : TokenStream) (i : Instruction)
    (hts : WFTS ts) : WFTS (maybeParseSuffix ts i).2 := by
  rw [maybeParseSuffix.eq_def]
  rcases hp : streamPeek ts with ⟨k, ts1⟩
  have h1 := (streamPeek_wf _ _ _ hts hp).1
  rcases k with _ | t
  · exact maybeParseSuffixMr_wfts _ _ h1
  · simp only []
    cases hk : t.kind <;>
      first
        | exact maybeParseSuffixMr_wfts _ _ h1
        | exact maybeParseSuffixMr_wfts _ _ (wfts_none _ (streamNext_peeked_none _))

theorem okSuffixed_wf (ts ts' : TokenStream) (K i : Instruction)
    (h : okSuffixed ts K = (.ok i, ts')) (hK : WFCore K) (hts : WFTS ts) :
    WFInst i ∧ WFTS ts' := by
  rw [okSuffixed] at h
  have hi : i = (maybeParseSuffix ts K).1 := by
    have := congrArg Prod.fst h
    simpa using this.symm
  have hts' : ts' = (maybeParseSuffix ts K).2 := by
    have := congrArg Prod.snd h
    simpa using this.symm
  constructor
  · rw [hi]
    rcases maybeParseSuffix_cases ts K with hc | ⟨n, hc⟩ | hc | ⟨n, hc⟩ <;>
      rw [hc]
    · exact WFInst.core _ hK
    · exact WFInst.rep _ _ hK
    · exact WFInst.mr _ hK
    · exact WFInst.mrRep _ _ hK
  · rw [hts']
    exact maybeParseSuffix_wfts _ _ hts

theorem parse_wf (f : Nat) :
    (∀ ts i ts', WFTS ts → parseInst f ts = (.ok i, ts') →
      WFInst i ∧ WFTS ts') ∧
    (∀ ts acc g ts', WFTS ts → parseGroupAux f ts acc = (.ok g, ts') →
      (∀ x ∈ acc, WFInst x) →
      (∃ l, g = .Group l ∧ l ≠ [] ∧ WFList l) ∧ WFTS ts') := by
  induction f with
  | zero =>
    constructor
    · intro ts i ts' _ h
      simp [parseInst] at h
    · intro ts acc g ts' _ h _
      simp [parseGroupAux] at h
  | succ f ih =>
    obtain ⟨ihInst, ihGroup⟩ := ih
    constructor
    · intro ts i ts' hts h
      rw [parseInst] at h
      rcases hn : streamNext ts with ⟨t?, ts1⟩
      rw [hn] at h
      rcases t? with _ | t
      · simp at h
      · have hts1 : WFTS ts1 := by
          have : ts1 = (streamNext ts).2 := by rw [hn]
          rw [this]
          exact wfts_none _ (streamNext_peeked_none _)
        simp only [] at h
        cases hk : t.kind <;> rw [hk] at h
        case Ch => exact okSuffixed_wf _ _ _ _ h WFCore.ch hts1
        case Sc => exact okSuffixed_wf _ _ _ _ h WFCore.sc hts1
        case Fpsc => exact okSuffixed_wf _ _ _ _ h WFCore.fpsc hts1
        case Bpsc => exact okSuffixed_wf _ _ _ _ h WFCore.bpsc hts1
        case Blsc => exact okSuffixed_wf _ _ _ _ h WFCore.blsc hts1
        case Inc => exact okSuffixed_wf _ _ _ _ h WFCore.inc hts1
        case Flinc => exact okSuffixed_wf _ _ _ _ h WFCore.flinc hts1
        case Blinc => exact okSuffixed_wf _ _ _ _ h WFCore.blinc hts1
        case Dec => exact okSuffixed_wf _ _ _ _ h WFCore.dec hts1
        case Tch => simp at h
        case InMr => simp at h
        case Number => simp at h
        case Newline => simp at h
        case RBracket => simp at h
        case Comma => simp at h
        case Comment s =>
          simp at h
          have hwt : WFTok t := streamNext_wf _ _ _ hts hn
          obtain ⟨hp1, hp2⟩ := hwt s hk
          refine ⟨?_, ?_⟩
          · rw [← h.1]
            exact WFInst.comment s hp1 hp2
          · rw [← h.2]
            exact hts1
        case Skip =>
          simp only [] at h
          rcases hn2 : streamNext ts1 with ⟨t2?, ts2⟩
          rw [hn2] at h
          rcases t2? with _ | t2
          · simp at h
          · simp only [] at h
            cases hk2 : t2.kind <;> rw [hk2] at h <;> simp at h
            case Number n =>
              refine ⟨?_, ?_⟩
              · rw [← h.1]
                exact WFInst.skipInst n
              · rw [← h.2]
                have : ts2 = (streamNext ts1).2 := by rw [hn2]
                rw [this]
                exact wfts_none _ (streamNext_peeked_none _)
        case LBracket =>
          simp only [] at h
          rcases hg : parseGroupAux f ts1 [] with ⟨rg, ts2⟩
          rw [hg] at h
          rcases rg with e | g
          · simp at h
          · simp only [] at h
            obtain ⟨⟨l, hl, hne, hwl⟩, hts2⟩ :=
              ihGroup ts1 [] g ts2 hts1 hg (by intro x hx; cases hx)
            rcases hn2 : streamNext ts2 with ⟨t2?, ts3⟩
            rw [hn2] at h
            rcases t2? with _ | t2
            · simp at h
            · simp only [] at h
              by_cases hrb : t2.kind = .RBracket
              · rw [if_pos hrb] at h
                have hts3 : WFTS ts3 := by
                  have : ts3 = (streamNext ts2).2 := by rw [hn2]
                  rw [this]
                  exact wfts_none _ (streamNext_peeked_none _)
                refine okSuffixed_wf _ _ _ _ h ?_ hts3
                rw [hl]
                exact WFCore.group l hne hwl
              · rw [if_neg hrb] at h
                simp at h
    · intro ts acc g ts' hts h hacc
      rw [parseGroupAux] at h
      rcases hi : parseInst f ts with ⟨ri, ts1⟩
      rw [hi] at h
      rcases ri with e | i
      · simp at h
      · simp only [] at h
        obtain ⟨hwi, hts1⟩ := ihInst ts i ts1 hts hi
        rcases hp : streamPeek ts1 with ⟨k, ts2⟩
        rw [hp] at h
        have hts2 : WFTS ts2 := (streamPeek_wf _ _ _ hts1 hp).1
        have hacc1 : ∀ x ∈ acc ++ [i], WFInst x := by
          intro x hx
          rcases List.mem_append.mp hx with hx | hx
          · exact hacc x hx
          · rw [List.mem_singleton.mp hx]
            exact hwi
        rcases k with _ | t
        · simp only [] at h
          simp at h
          refine ⟨⟨acc ++ [i], h.1.symm, by simp, (WFList_iff _).mpr hacc1⟩, ?_⟩
          rw [← h.2]
          exact hts2
        · simp only [] at h
          by_cases hc : t.kind = .Comma
          · rw [if_pos hc] at h
            refine ihGroup _ _ _ _ ?_ h hacc1
            exact wfts_none _ (streamNext_peeked_none _)
          · rw [if_neg hc] at h
            simp at h
            refine ⟨⟨acc ++ [i], h.1.symm, by simp, (WFList_iff _).mpr hacc1⟩, ?_⟩
            rw [← h.2]
            exact hts2

/-- A round as the top-level parse produces it: a nonempty well-formed
group. -/
def RoundWF (x : Instruction) : Prop :=
  ∃ l, x = .Group l ∧ l ≠ [] ∧ WFList l

theorem skipNewlines_wfts (f : Nat) :
    ∀ ts, WFTS ts → WFTS (skipNewlines f ts) := by
  induction f with
  | zero => intro ts h; exact h
  | succ f ih =>
    intro ts h
    rw [skipNewlines]
    rcases hp : streamPeek ts with ⟨k, ts1⟩
    have hts1 : WFTS ts1 := (streamPeek_wf _ _ _ h hp).1
    rcases k with _ | t
    · exact hts1
    · simp only []
      split
      · exact ih _ (wfts_none _ (streamNext_peeked_none _))
      · exact hts1

theorem parseRoundsAux_wf (f : Nat) :
    ∀ ts acc res ts1, WFTS ts → parseRoundsAux f ts acc = (.ok res, ts1) →
      (∀ x ∈ acc, RoundWF x) → ∀ x ∈ res, RoundWF x := by
  induction f with
  | zero =>
    intro ts acc res ts1 _ h hacc
    simp [parseRoundsAux] at h
  | succ f ih =>
    intro ts acc res ts1 hts h hacc
    rw [parseRoundsAux] at h
    rcases hp : streamPeek ts with ⟨k, tsa⟩
    rw [hp] at h
    have htsa : WFTS tsa := (streamPeek_wf _ _ _ hts hp).1
    rcases k with _ | t
    · simp only [] at h
      simp at h
      rw [← h.1]
      exact hacc
    · simp only [] at h
      rcases hg : parseGroupAux f tsa [] with ⟨rg, tsb⟩
      rw [hg] at h
      rcases rg with e | g
      · simp at h
      · simp only [] at h
        obtain ⟨⟨l, hl, hne, hwl⟩, htsb⟩ :=
          (parse_wf f).2 tsa [] g tsb htsa hg (by intro x hx; cases hx)
        rcases hp2 : streamPeek tsb with ⟨k2, tsc⟩
        rw [hp2] at h
        have htsc : WFTS tsc := (streamPeek_wf _ _ _ htsb hp2).1
        simp only [] at h
        split at h
        · simp at h
        · refine ih _ _ _ _ (skipNewlines_wfts f _ htsc) h ?_
          intro x hx
          rcases List.mem_append.mp hx with hx | hx
          · exact hacc x hx
          · rw [List.mem_singleton.mp hx]
            exact ⟨l, hl, hne, hwl⟩

theorem parseRounds_wf (source : List Char) (r : List Instruction)
    (h : parseRounds source = .ok r) : ∀ x ∈ r, RoundWF x := by
  intro x hx
  rw [parseRounds] at h
  rcases hp : parseTop (parseFuel (tokenize source)) (tokenize source)
    with ⟨res, ts2⟩
  rw [hp] at h
  simp only [] at h
  split at h
  · rw [parseTop] at hp
    rw [h] at hp
    refine parseRoundsAux_wf _ _ _ _ _ ?_ hp (by intro y hy; cases hy) x hx
    exact skipNewlines_wfts _ _ (wfts_none _ rfl)
  · simp at h

mutual

/-- Node count of an instruction tree (for the strong induction behind the
round-trip proof). -/
def instSize : Instruction → Nat
  | .IntoMagicRing i => instSize i + 1
  | .Group l => instSizeList l + 1
  | .Repeat i _ => instSize i + 1
  | _ => 1

/-- Total node count of an instruction list. -/
def instSizeList : List Instruction → Nat
  | [] => 0
  | x :: xs => instSize x + instSizeList xs

end

theorem instSize_pos (i : Instruction) : 1 ≤ instSize i := by
  cases i <;> simp [instSize]

theorem renderTail_cons_body (x : Instruction) (xs : List Instruction) :
    renderTail (x :: xs) = ',' :: ' ' :: renderBody (x :: xs) := by
  rw [renderTail, renderBody]
  simp

theorem renderTail_eq_of_body (l1 l2 : List Instruction) (h1 : l1 ≠ [])
    (h2 : l2 ≠ []) (h : renderBody l1 = renderBody l2) :
    renderTail l1 = renderTail l2 := by
  cases l1 with
  | nil => exact absurd rfl h1
  | cons x xs =>
    cases l2 with
    | nil => exact absurd rfl h2
    | cons y ys => rw [renderTail_cons_body, renderTail_cons_body, h]

theorem renderTail_append (a b : List Instruction) :
    renderTail (a ++ b) = renderTail a ++ renderTail b := by
  induction a with
  | nil => simp [renderTail]
  | cons x xs ih => simp [renderTail, ih]

theorem renderBody_append (a b : List Instruction) (ha : a ≠ []) :
    renderBody (a ++ b) = renderBody a ++ renderTail b := by
  cases a with
  | nil => exact absurd rfl ha
  | cons x xs =>
    rw [List.cons_append, renderBody, renderBody, renderTail_append,
      List.append_assoc]

theorem renderBody_splice (g tail : List Instruction) (hg : g ≠ []) :
    renderBody (.Group g :: tail) = renderBody (g ++ tail) := by
  rw [renderBody, renderInst, renderBody_append g tail hg]

/-- A legal continuation after a complete suffixed instruction: end of input,
or a comma, newline or closing bracket. -/
def Boundary (rest : List Char) : Prop :=
  rest = [] ∨ ∃ rest', rest = ',' :: rest' ∨ rest = '\n' :: rest' ∨
    rest = ']' :: rest'

/-- A legal continuation after a full group body: end of input, newline or
closing bracket (no comma: a comma would extend the group). -/
def GroupBoundary (rest : List Char) : Prop :=
  rest = [] ∨ ∃ rest', rest = '\n' :: rest' ∨ rest = ']' :: rest'

theorem groupBoundary_boundary (rest : List Char) (h : GroupBoundary rest) :
    Boundary rest := by
  rcases h with h | ⟨r, h | h⟩
  · exact Or.inl h
  · exact Or.inr ⟨r, Or.inr (Or.inl h)⟩
  · exact Or.inr ⟨r, Or.inr (Or.inr h)⟩

theorem boundary_not_digit (rest : List Char) (h : Boundary rest) :
    ∀ a, rest.head? = some a → isDigitChar a = false := by
  rcases h with h | ⟨r, h | h | h⟩ <;> subst h <;> intro a ha <;> simp at ha <;>
    rw [← ha] <;> decide

theorem boundary_step (rest : List Char) (h : Boundary rest) (ln co : Nat) :
    (rest = [] ∧ lexNext ⟨rest, ln, co⟩ = (none, ⟨[], ln, co⟩)) ∨
    (∃ t lx', lexNext ⟨rest, ln, co⟩ = (some t, lx') ∧
      (t.kind = .Comma ∨ t.kind = .Newline ∨ t.kind = .RBracket)) := by
  rcases h with h | ⟨r, h | h | h⟩ <;> subst h
  · exact Or.inl ⟨rfl, lexNext_nil ln co⟩
  · exact Or.inr ⟨_, _, lexNext_comma r ln co, Or.inl rfl⟩
  · exact Or.inr ⟨_, _, lexNext_newline r ln co, Or.inr (Or.inl rfl)⟩
  · exact Or.inr ⟨_, _, lexNext_rbracket r ln co, Or.inr (Or.inr rfl)⟩

theorem suffixMr_none (ts : TokenStream) (c : Instruction) (rest : List Char)
    (h : Looks ts rest) (hb : Boundary rest) :
    ∃ ts', maybeParseSuffixMr ts c = (c, ts') ∧ Looks ts' rest := by
  obtain ⟨ln, co, hpk⟩ := looks_peek ts rest h
  rcases boundary_step rest hb ln co with ⟨hrest, hl⟩ | ⟨t, lx', hl, hk⟩
  · subst hrest
    refine ⟨⟨⟨[], ln, co⟩, none⟩, ?_, looks_fresh [] ln co⟩
    rw [maybeParseSuffixMr.eq_def, hpk, streamPeek_none_buf, hl]
  · refine ⟨(streamPeek ⟨⟨rest, ln, co⟩, none⟩).2, ?_,
      looks_peeked rest ln co⟩
    rw [maybeParseSuffixMr.eq_def, hpk, streamPeek_none_buf, hl]
    simp only []
    rcases hk with hk | hk | hk <;> rw [hk]

theorem suffixMr_yes (ts : TokenStream) (c : Instruction) (rest : List Char)
    (h : Looks ts ([' ', 'i', 'n', ' ', 'm', 'r'] ++ rest)) :
    ∃ ts', maybeParseSuffixMr ts c = (.IntoMagicRing c, ts') ∧
      Looks ts' rest := by
  obtain ⟨ln, co, hpk⟩ := looks_peek ts _ h
  have hl : lexNext ⟨[' ', 'i', 'n', ' ', 'm', 'r'] ++ rest, ln, co⟩ =
      (some ⟨.InMr, ln, co + 1⟩, ⟨rest, ln, co + 1 + 5⟩) := by
    show lexNext ⟨' ' :: (['i', 'n', ' ', 'm', 'r'] ++ rest), ln, co⟩ = _
    rw [lexNext_space, lexNext_kw_inmr]
  refine ⟨⟨⟨rest, ln, co + 1 + 5⟩, none⟩, ?_, looks_fresh rest ln _⟩
  rw [maybeParseSuffixMr.eq_def, hpk, streamPeek_none_buf, hl]
  rfl

theorem suffix_none (ts : TokenStream) (c : Instruction) (rest : List Char)
    (h : Looks ts rest) (hb : Boundary rest) :
    ∃ ts', maybeParseSuffix ts c = (c, ts') ∧ Looks ts' rest := by
  obtain ⟨ln, co, hpk⟩ := looks_peek ts rest h
  rcases boundary_step rest hb ln co with ⟨hrest, hl⟩ | ⟨t, lx', hl, hk⟩
  · subst hrest
    have h1 : maybeParseSuffix ts c =
        maybeParseSuffixMr ⟨⟨[], ln, co⟩, none⟩ c := by
      rw [maybeParseSuffix.eq_def, hpk, streamPeek_none_buf, hl]
    obtain ⟨ts', h2, h3⟩ :=
      suffixMr_none ⟨⟨[], ln, co⟩, none⟩ c [] (looks_fresh _ _ _) (Or.inl rfl)
    exact ⟨ts', by rw [h1, h2], h3⟩
  · have h1 : maybeParseSuffix ts c =
        maybeParseSuffixMr (streamPeek ⟨⟨rest, ln, co⟩, none⟩).2 c := by
      rw [maybeParseSuffix.eq_def, hpk]
      rw [streamPeek_none_buf, hl]
      simp only []
      rcases hk with hk | hk | hk <;> rw [hk]
    obtain ⟨ts', h2, h3⟩ :=
      suffixMr_none _ c rest (looks_peeked rest ln co) hb
    exact ⟨ts', by rw [h1]; exact h2, h3⟩

theorem suffix_number_step (ts : TokenStream) (c : Instruction) (n : Nat)
    (rest2 : List Char)
    (hnd : ∀ a, rest2.head? = some a → isDigitChar a = false)
    (h : Looks ts (' ' :: (natDecimal n ++ rest2))) :
    ∃ ln co, maybeParseSuffix ts c =
      maybeParseSuffixMr ⟨⟨rest2, ln, co⟩, none⟩ (.Repeat c n) := by
  obtain ⟨ln, co, hpk⟩ := looks_peek ts _ h
  have hl : lexNext ⟨' ' :: (natDecimal n ++ rest2), ln, co⟩ =
      (some ⟨.Number n, ln, co + 1⟩,
        ⟨rest2, ln, co + 1 + (natDecimal n).length⟩) := by
    rw [lexNext_space, lexNext_number _ _ _ _ hnd]
  refine ⟨ln, co + 1 + (natDecimal n).length, ?_⟩
  rw [maybeParseSuffix.eq_def, hpk, streamPeek_none_buf, hl]
  rfl

theorem suffix_rep (ts : TokenStream) (c : Instruction) (n : Nat)
    (rest : List Char) (h : Looks ts (' ' :: (natDecimal n ++ rest)))
    (hb : Boundary rest) :
    ∃ ts', maybeParseSuffix ts c = (.Repeat c n, ts') ∧ Looks ts' rest := by
  obtain ⟨ln, co, h1⟩ :=
    suffix_number_step ts c n rest (boundary_not_digit rest hb) h
  obtain ⟨ts', h2, h3⟩ :=
    suffixMr_none ⟨⟨rest, ln, co⟩, none⟩ _ rest (looks_fresh _ _ _) hb
  exact ⟨ts', by rw [h1, h2], h3⟩

theorem suffix_mr (ts : TokenStream) (c : Instruction) (rest : List Char)
    (h : Looks ts ([' ', 'i', 'n', ' ', 'm', 'r'] ++ rest)) :
    ∃ ts', maybeParseSuffix ts c = (.IntoMagicRing c, ts') ∧
      Looks ts' rest := by
  obtain ⟨ln, co, hpk⟩ := looks_peek ts _ h
  have hl : lexNext ⟨[' ', 'i', 'n', ' ', 'm', 'r'] ++ rest, ln, co⟩ =
      (some ⟨.InMr, ln, co + 1⟩, ⟨rest, ln, co + 1 + 5⟩) := by
    show lexNext ⟨' ' :: (['i', 'n', ' ', 'm', 'r'] ++ rest), ln, co⟩ = _
    rw [lexNext_space, lexNext_kw_inmr]
  have h1 : maybeParseSuffix ts c =
      maybeParseSuffixMr (streamPeek ⟨⟨[' ', 'i', 'n', ' ', 'm', 'r'] ++ rest,
        ln, co⟩, none⟩).2 c := by
    rw [maybeParseSuffix.eq_def, hpk]
    rw [streamPeek_none_buf, hl]
  obtain ⟨ts', h2, h3⟩ := suffixMr_yes _ c rest (looks_peeked _ ln co)
  exact ⟨ts', by rw [h1]; exact h2, h3⟩

theorem suffix_repmr (ts : TokenStream) (c : Instruction) (n : Nat)
    (rest : List Char)
    (h : Looks ts (' ' :: (natDecimal n ++
      ([' ', 'i', 'n', ' ', 'm', 'r'] ++ rest)))) :
    ∃ ts', maybeParseSuffix ts c = (.IntoMagicRing (.Repeat c n), ts') ∧
      Looks ts' rest := by
  obtain ⟨ln, co, h1⟩ := suffix_number_step ts c n _ (by
    intro a ha
    simp at ha
    rw [← ha]
    decide) h
  obtain ⟨ts', h2, h3⟩ :=
    suffixMr_yes ⟨⟨[' ', 'i', 'n', ' ', 'm', 'r'] ++ rest, ln, co⟩, none⟩ _
      rest (looks_fresh _ _ _)
  exact ⟨ts', by rw [h1, h2], h3⟩

theorem WFList_append (a b : List Instruction) (ha : WFList a)
    (hb : WFList b) : WFList (a ++ b) := by
  rw [WFList_iff]
  intro x hx
  rcases List.mem_append.mp hx with hx | hx
  · exact (WFList_iff a).mp ha x hx
  · exact (WFList_iff b).mp hb x hx

theorem instSizeList_append (a b : List Instruction) :
    instSizeList (a ++ b) = instSizeList a + instSizeList b := by
  induction a with
  | nil => simp [instSizeList]
  | cons x xs ih => simp [instSizeList, ih]; omega

theorem renderInst_ch : renderInst .Ch = ['c', 'h'] := rfl

theorem renderInst_sc : renderInst .Sc = ['s', 'c'] := rfl

theorem renderInst_fpsc : renderInst .Fpsc = ['f', 'p', 's', 'c'] := rfl

theorem renderInst_bpsc : renderInst .Bpsc = ['b', 'p', 's', 'c'] := rfl

theorem renderInst_blsc : renderInst .Blsc = ['b', 'l', 's', 'c'] := rfl

theorem renderInst_inc : renderInst .Inc = ['i', 'n', 'c'] := rfl

theorem renderInst_flinc : renderInst .Flinc = ['f', 'l', 'i', 'n', 'c'] := rfl

theorem renderInst_blinc : renderInst .Blinc = ['b', 'l', 'i', 'n', 'c'] := rfl

theorem renderInst_dec : renderInst .Dec = ['d', 'e', 'c'] := rfl

theorem renderInst_group (gl : List Instruction) :
    renderInst (.Group gl) = renderBody gl := rfl

theorem renderInst_comment (s : List Char) :
    renderInst (.Comment s) = '%' :: ' ' :: (s ++ [' ', '%']) := rfl

theorem renderInst_skip (n : Nat) :
    renderInst (.Skip n) = ['s', 'k', 'i', 'p', ' '] ++ natDecimal n := rfl

theorem renderInst_rep (K : Instruction) (n : Nat)
    (hng : ∀ gl, K ≠ .Group gl) :
    renderInst (.Repeat K n) = renderInst K ++ ' ' :: natDecimal n := by
  cases K <;> first | rfl | exact absurd rfl (hng _)

theorem renderInst_mr (K : Instruction) (hng : ∀ gl, K ≠ .Group gl) :
    renderInst (.IntoMagicRing K) =
      renderInst K ++ [' ', 'i', 'n', ' ', 'm', 'r'] := by
  cases K <;> first | rfl | exact absurd rfl (hng _)

theorem renderInst_rep_group (gl : List Instruction) (n : Nat) :
    renderInst (.Repeat (.Group gl) n) =
      '[' :: (renderBody gl ++ ']' :: ' ' :: natDecimal n) := rfl

theorem renderInst_mr_group (gl : List Instruction) :
    renderInst (.IntoMagicRing (.Group gl)) =
      '[' :: (renderBody gl ++ [']', ' ', 'i', 'n', ' ', 'm', 'r']) := rfl

theorem notGroup_rep (K : Instruction) (n : Nat) :
    ∀ gl, Instruction.Repeat K n ≠ .Group gl := by
  intro gl h
  exact Instruction.noConfusion h

theorem WFCore_group_inv (gl : List Instruction) (h : WFCore (.Group gl)) :
    gl ≠ [] ∧ WFList gl := by
  cases h
  constructor <;> assumption

theorem firstTok_stitch (K : Instruction) (hK : WFCore K)
    (hng : ∀ gl, K ≠ .Group gl) (rest : List Char) (ln co : Nat) :
    ∃ t lx', lexNext ⟨renderInst K ++ rest, ln, co⟩ = (some t, lx') ∧
      t.kind ≠ .Newline := by
  cases hK with
  | ch =>
    rw [renderInst_ch]
    exact ⟨_, _, lexNext_kw_ch rest ln co, by simp⟩
  | sc =>
    rw [renderInst_sc]
    exact ⟨_, _, lexNext_kw_sc rest ln co, by simp⟩
  | fpsc =>
    rw [renderInst_fpsc]
    exact ⟨_, _, lexNext_kw_fpsc rest ln co, by simp⟩
  | bpsc =>
    rw [renderInst_bpsc]
    exact ⟨_, _, lexNext_kw_bpsc rest ln co, by simp⟩
  | blsc =>
    rw [renderInst_blsc]
    exact ⟨_, _, lexNext_kw_blsc rest ln co, by simp⟩
  | inc =>
    rw [renderInst_inc]
    exact ⟨_, _, lexNext_kw_inc rest ln co, by simp⟩
  | flinc =>
    rw [renderInst_flinc]
    exact ⟨_, _, lexNext_kw_flinc rest ln co, by simp⟩
  | blinc =>
    rw [renderInst_blinc]
    exact ⟨_, _, lexNext_kw_blinc rest ln co, by simp⟩
  | dec =>
    rw [renderInst_dec]
    exact ⟨_, _, lexNext_kw_dec rest ln co, by simp⟩
  | group l hne hl => exact absurd rfl (hng l)

theorem firstTok_body (N : Nat) :
    ∀ l, instSizeList l ≤ N → WFList l → l ≠ [] → ∀ rest ln co,
      ∃ t lx', lexNext ⟨renderBody l ++ rest, ln, co⟩ = (some t, lx') ∧
        t.kind ≠ .Newline := by
  induction N using Nat.strong_induction_on with
  | _ N IH =>
    intro l hsz hl hne rest ln co
    cases l with
    | nil => exact absurd rfl hne
    | cons c tail =>
      cases hl with
      | cons _ _ hc htail =>
        rw [renderBody, List.append_assoc]
        cases hc with
        | core K hK =>
          by_cases hng : ∀ gl, c ≠ Instruction.Group gl
          · exact firstTok_stitch c hK hng _ ln co
          · push_neg at hng
            obtain ⟨gl, hgl⟩ := hng
            subst hgl
            obtain ⟨hgne, hglwf⟩ := WFCore_group_inv gl hK
            have harr : renderInst (.Group gl) ++ (renderTail tail ++ rest) =
                renderBody (gl ++ tail) ++ rest := by
              rw [renderInst_group, renderBody_append gl tail hgne,
                List.append_assoc]
            rw [harr]
            have hm : instSizeList gl + instSizeList tail < N := by
              have : instSizeList (.Group gl :: tail) =
                  (instSizeList gl + 1) + instSizeList tail := by
                simp [instSizeList, instSize]
              omega
            exact IH (instSizeList gl + instSizeList tail) hm (gl ++ tail)
              (by rw [instSizeList_append]) (WFList_append _ _ hglwf htail)
              (by simp [hgne]) rest ln co
        | rep K n hK =>
          by_cases hng : ∀ gl, K ≠ Instruction.Group gl
          · rw [renderInst_rep K n hng, List.append_assoc, List.cons_append]
            exact firstTok_stitch K hK hng _ ln co
          · push_neg at hng
            obtain ⟨gl, hgl⟩ := hng
            subst hgl
            rw [renderInst_rep_group, List.cons_append]
            exact ⟨_, _, lexNext_lbracket _ ln co, by simp⟩
        | mr K hK =>
          by_cases hng : ∀ gl, K ≠ Instruction.Group gl
          · rw [renderInst_mr K hng, List.append_assoc]
            exact firstTok_stitch K hK hng _ ln co
          · push_neg at hng
            obtain ⟨gl, hgl⟩ := hng
            subst hgl
            rw [renderInst_mr_group, List.cons_append]
            exact ⟨_, _, lexNext_lbracket _ ln co, by simp⟩
        | mrRep K n hK =>
          by_cases hng : ∀ gl, K ≠ Instruction.Group gl
          · rw [renderInst_mr _ (notGroup_rep K n), renderInst_rep K n hng,
              List.append_assoc, List.append_assoc, List.cons_append]
            exact firstTok_stitch K hK hng _ ln co
          · push_neg at hng
            obtain ⟨gl, hgl⟩ := hng
            subst hgl
            rw [renderInst_mr _ (notGroup_rep _ n), renderInst_rep_group,
              List.cons_append, List.cons_append]
            exact ⟨_, _, lexNext_lbracket _ ln co, by simp⟩
        | comment s hp hn2 =>
          have harr : renderInst (.Comment s) ++ (renderTail tail ++ rest) =
              '%' :: ' ' :: (s ++ (' ' :: '%' ::
                (renderTail tail ++ rest))) := by
            rw [renderInst_comment]
            simp
          rw [harr]
          obtain ⟨ln', co', hcl⟩ :=
            lexNext_comment s (renderTail tail ++ rest) ln co hp hn2
          exact ⟨_, _, hcl, by simp⟩
        | skipInst n =>
          have harr : renderInst (.Skip n) ++ (renderTail tail ++ rest) =
              ['s', 'k', 'i', 'p'] ++ (' ' :: (natDecimal n ++
                (renderTail tail ++ rest))) := by
            rw [renderInst_skip]
            simp
          rw [harr]
          exact ⟨_, _, lexNext_kw_skipkw _ ln co, by simp⟩

/-- What a successful reparse of one rendered suffixed instruction must
produce: an ok result whose rendering matches, with the stream left looking
at the continuation. -/
def ParseInstOK (i : Instruction) : Prop :=
  ∀ f ts rest, 2 * instSize i ≤ f → Looks ts (renderInst i ++ rest) →
    Boundary rest →
    ∃ i' ts', parseInst f ts = (.ok i', ts') ∧
      renderInst i' = renderInst i ∧ Looks ts' rest

/-- What a successful reparse of one rendered group body must produce: the
accumulated group extended by a render-equal nonempty list, with the stream
left looking at the continuation. -/
def ParseGroupOK (l : List Instruction) : Prop :=
  ∀ f acc ts rest, 2 * instSizeList l + 1 ≤ f →
    Looks ts (renderBody l ++ rest) → GroupBoundary rest →
    ∃ l' ts', parseGroupAux f ts acc = (.ok (.Group (acc ++ l')), ts') ∧
      l' ≠ [] ∧ renderBody l' = renderBody l ∧ Looks ts' rest

/-- The bracket-wrapped spelling of a core: how a core appears in the source
text when a suffix follows it (groups are re-bracketed, stitches are bare). -/
def renderCore (K : Instruction) : List Char :=
  match K with
  | .Group l => '[' :: (renderBody l ++ [']'])
  | _ => renderInst K

theorem renderInst_rep_core (K : Instruction) (n : Nat) (hK : WFCore K) :
    renderInst (.Repeat K n) = renderCore K ++ ' ' :: natDecimal n := by
  cases hK <;> first
    | rfl
    | (rw [renderInst_rep_group, renderCore]; simp)

theorem renderInst_mr_core (K : Instruction) (hK : WFCore K) :
    renderInst (.IntoMagicRing K) =
      renderCore K ++ [' ', 'i', 'n', ' ', 'm', 'r'] := by
  cases hK <;> first
    | rfl
    | (rw [renderInst_mr_group, renderCore]; simp)

theorem renderInst_mrrep_core (K : Instruction) (n : Nat) (hK : WFCore K) :
    renderInst (.IntoMagicRing (.Repeat K n)) =
      renderCore K ++ (' ' :: natDecimal n ++ [' ', 'i', 'n', ' ', 'm', 'r']) := by
  rw [renderInst_mr _ (notGroup_rep K n), renderInst_rep_core K n hK]
  simp

theorem peek_groupBoundary (ts1 : TokenStream) (rest : List Char)
    (h : Looks ts1 rest) (hb : GroupBoundary rest) :
    (∃ ts2, streamPeek ts1 = (none, ts2) ∧ Looks ts2 rest) ∨
    (∃ t ts2, streamPeek ts1 = (some t, ts2) ∧ t.kind ≠ .Comma ∧
      Looks ts2 rest) := by
  obtain ⟨ln, co, hpk⟩ := looks_peek ts1 rest h
  rcases hb with hb | ⟨r, hb | hb⟩ <;> subst hb
  · refine Or.inl ⟨⟨⟨[], ln, co⟩, none⟩, ?_, ?_⟩
    · rw [hpk]
      simp [streamPeek_none_buf, lexNext_nil]
    · obtain ⟨ln2, co2, hq⟩ := looks_peeked ([] : List Char) ln co
      refine ⟨ln, co, Or.inl rfl⟩
  · refine Or.inr ⟨⟨.Newline, ln, co⟩,
      ⟨⟨r, ln + 1, 1⟩, some ⟨.Newline, ln, co⟩⟩, ?_, by simp, ?_⟩
    · rw [hpk]
      simp [streamPeek_none_buf, lexNext_newline]
    · have := looks_peeked ('\n' :: r) ln co
      rw [streamPeek_none_buf, lexNext_newline] at this
      exact this
  · refine Or.inr ⟨⟨.RBracket, ln, co⟩,
      ⟨⟨r, ln, co + 1⟩, some ⟨.RBracket, ln, co⟩⟩, ?_, by simp, ?_⟩
    · rw [hpk]
      simp [streamPeek_none_buf, lexNext_rbracket]
    · have := looks_peeked (']' :: r) ln co
      rw [streamPeek_none_buf, lexNext_rbracket] at this
      exact this

theorem peek_comma (ts1 : TokenStream) (A : List Char)
    (h : Looks ts1 (',' :: A)) :
    ∃ t ts2 ln co, streamPeek ts1 = (some t, ts2) ∧ t.kind = .Comma ∧
      (streamNext ts2).2 = ⟨⟨A, ln, co⟩, none⟩ := by
  obtain ⟨ln, co, hpk⟩ := looks_peek ts1 _ h
  refine ⟨⟨.Comma, ln, co⟩, ⟨⟨A, ln, co + 1⟩, some ⟨.Comma, ln, co⟩⟩, ln,
    co + 1, ?_, rfl, rfl⟩
  rw [hpk, streamPeek_none_buf, lexNext_comma]

theorem parseInst_core (N : Nat)
    (IH : ∀ l, WFList l → l ≠ [] → instSizeList l < N → ParseGroupOK l)
    (K : Instruction) (hK : WFCore K) (hsz : instSize K ≤ N)
    (f : Nat) (ts : TokenStream) (tail : List Char)
    (hf : 2 * instSize K ≤ f + 1)
    (hlooks : Looks ts (renderCore K ++ tail)) :
    ∃ K' ts1, parseInst (f + 1) ts = okSuffixed ts1 K' ∧ Looks ts1 tail ∧
      (K' = K ∨ ∃ gl l2, K = .Group gl ∧ K' = .Group l2 ∧ l2 ≠ [] ∧
        renderBody l2 = renderBody gl) := by
  obtain ⟨ln, co, hnext⟩ := looks_next ts _ hlooks
  cases hK with
  | ch =>
    rw [show renderCore Instruction.Ch = ['c', 'h'] from rfl,
      lexNext_kw_ch] at hnext
    simp only [] at hnext
    exact ⟨.Ch, ⟨⟨tail, ln, co + 2⟩, none⟩, by rw [parseInst, hnext],
      looks_fresh tail ln (co + 2), Or.inl rfl⟩
  | sc =>
    rw [show renderCore Instruction.Sc = ['s', 'c'] from rfl,
      lexNext_kw_sc] at hnext
    simp only [] at hnext
    exact ⟨.Sc, ⟨⟨tail, ln, co + 2⟩, none⟩, by rw [parseInst, hnext],
      looks_fresh tail ln (co + 2), Or.inl rfl⟩
  | fpsc =>
    rw [show renderCore Instruction.Fpsc = ['f', 'p', 's', 'c'] from rfl,
      lexNext_kw_fpsc] at hnext
    simp only [] at hnext
    exact ⟨.Fpsc, ⟨⟨tail, ln, co + 4⟩, none⟩, by rw [parseInst, hnext],
      looks_fresh tail ln (co + 4), Or.inl rfl⟩
  | bpsc =>
    rw [show renderCore Instruction.Bpsc = ['b', 'p', 's', 'c'] from rfl,
      lexNext_kw_bpsc] at hnext
    simp only [] at hnext
    exact ⟨.Bpsc, ⟨⟨tail, ln, co + 4⟩, none⟩, by rw [parseInst, hnext],
      looks_fresh tail ln (co + 4), Or.inl rfl⟩
  | blsc =>
    rw [show renderCore Instruction.Blsc = ['b', 'l', 's', 'c'] from rfl,
      lexNext_kw_blsc] at hnext
    simp only [] at hnext
    exact ⟨.Blsc, ⟨⟨tail, ln, co + 4⟩, none⟩, by rw [parseInst, hnext],
      looks_fresh tail ln (co + 4), Or.inl rfl⟩
  | inc =>
    rw [show renderCore Instruction.Inc = ['i', 'n', 'c'] from rfl,
      lexNext_kw_inc] at hnext
    simp only [] at hnext
    exact ⟨.Inc, ⟨⟨tail, ln, co + 3⟩, none⟩, by rw [parseInst, hnext],
      looks_fresh tail ln (co + 3), Or.inl rfl⟩
  | flinc =>
    rw [show renderCore Instruction.Flinc = ['f', 'l', 'i', 'n', 'c'] from rfl,
      lexNext_kw_flinc] at hnext
    simp only [] at hnext
    exact ⟨.Flinc, ⟨⟨tail, ln, co + 5⟩, none⟩, by rw [parseInst, hnext],
      looks_fresh tail ln (co + 5), Or.inl rfl⟩
  | blinc =>
    rw [show renderCore Instruction.Blinc = ['b', 'l', 'i', 'n', 'c'] from rfl,
      lexNext_kw_blinc] at hnext
    simp only [] at hnext
    exact ⟨.Blinc, ⟨⟨tail, ln, co + 5⟩, none⟩, by rw [parseInst, hnext],
      looks_fresh tail ln (co + 5), Or.inl rfl⟩
  | dec =>
    rw [show renderCore Instruction.Dec = ['d', 'e', 'c'] from rfl,
      lexNext_kw_dec] at hnext
    simp only [] at hnext
    exact ⟨.Dec, ⟨⟨tail, ln, co + 3⟩, none⟩, by rw [parseInst, hnext],
      looks_fresh tail ln (co + 3), Or.inl rfl⟩
  | group gl hgne hglwf =>
    have hren : renderCore (.Group gl) ++ tail =
        '[' :: (renderBody gl ++ (']' :: tail)) := by
      rw [renderCore]
      simp
    rw [hren, lexNext_lbracket] at hnext
    simp only [] at hnext
    have hszg : instSize (Instruction.Group gl) = instSizeList gl + 1 := by
      rw [instSize]
    have hszl : instSizeList gl < N := by omega
    obtain ⟨l2, ts2, hpg, hne2, hrb, hlk2⟩ :=
      IH gl hglwf hgne hszl f []
        ⟨⟨renderBody gl ++ (']' :: tail), ln, co + 1⟩, none⟩
        (']' :: tail) (by omega) (looks_fresh _ _ _)
        (Or.inr ⟨tail, Or.inr rfl⟩)
    rw [List.nil_append] at hpg
    obtain ⟨ln2, co2, hnext2⟩ := looks_next ts2 _ hlk2
    rw [lexNext_rbracket] at hnext2
    simp only [] at hnext2
    refine ⟨.Group l2, ⟨⟨tail, ln2, co2 + 1⟩, none⟩, ?_, looks_fresh _ _ _,
      Or.inr ⟨gl, l2, rfl, rfl, hne2, hrb⟩⟩
    rw [parseInst, hnext]
    simp only []
    rw [hpg]
    simp only []
    rw [hnext2]
    simp only []
    simp

theorem parseGroupAux_succ (f : Nat) (ts : TokenStream)
    (acc : List Instruction) :
    parseGroupAux (f + 1) ts acc =
      match parseInst f ts with
      | (.error e, ts1) => (.error e, ts1)
      | (.ok i, ts1) =>
        let acc1 := acc ++ [i]
        match streamPeek ts1 with
        | (some t, ts2) =>
          if t.kind = .Comma then parseGroupAux f (streamNext ts2).2 acc1
          else (.ok (.Group acc1), ts2)
        | (none, ts2) => (.ok (.Group acc1), ts2) := rfl

theorem okSuffixed_eq (ts : TokenStream) (c d : Instruction)
    (ts' : TokenStream) (h : maybeParseSuffix ts c = (d, ts')) :
    okSuffixed ts c = (.ok d, ts') := by
  simp only [okSuffixed, h]

theorem WFInst_group_inv (gl : List Instruction)
    (h : WFInst (.Group gl)) : gl ≠ [] ∧ WFList gl := by
  cases h with
  | core K hK => exact WFCore_group_inv gl hK

theorem WFList_cons_inv (x : Instruction) (l : List Instruction)
    (h : WFList (x :: l)) : WFInst x ∧ WFList l := by
  cases h
  constructor <;> assumption

theorem parse_render (N : Nat) :
    (∀ i, WFInst i → (∀ gl, i ≠ .Group gl) → instSize i ≤ N →
      ParseInstOK i) ∧
    (∀ l, WFList l → l ≠ [] → instSizeList l ≤ N → ParseGroupOK l) := by
  induction N using Nat.strong_induction_on with
  | _ N IH =>
    have IHg : ∀ l, WFList l → l ≠ [] → instSizeList l < N →
        ParseGroupOK l := by
      intro l h1 h2 hlt
      exact (IH (instSizeList l) hlt).2 l h1 h2 le_rfl
    have hS2 : ∀ i, WFInst i → (∀ gl, i ≠ .Group gl) → instSize i ≤ N →
        ParseInstOK i := by
      intro i hwf hng hsz f ts rest hf hlooks hb
      have hpos := instSize_pos i
      obtain ⟨f2, rfl⟩ : ∃ f2, f = f2 + 1 := by
        cases f with
        | zero => omega
        | succ f2 => exact ⟨f2, rfl⟩
      cases hwf with
      | core K hK =>
        have hlooks2 : Looks ts (renderCore i ++ rest) := by
          have hrc : renderCore i = renderInst i := by
            cases hK <;> first | rfl | exact absurd rfl (hng _)
          rw [hrc]
          exact hlooks
        obtain ⟨K', ts1, hrun, hlk1, hcase⟩ :=
          parseInst_core N IHg i hK hsz f2 ts rest (by omega) hlooks2
        rcases hcase with hKK | ⟨gl, l2, hgl, hrest2⟩
        · obtain ⟨ts', hms, hlk'⟩ := suffix_none ts1 K' rest hlk1 hb
          refine ⟨K', ts', ?_, by rw [hKK], hlk'⟩
          rw [hrun]
          exact okSuffixed_eq ts1 K' K' ts' hms
        · exact absurd hgl (hng gl)
      | rep K n hK =>
        have hszr : instSize (Instruction.Repeat K n) = instSize K + 1 := by
          rw [instSize]
        have hlooks2 : Looks ts
            (renderCore K ++ (' ' :: (natDecimal n ++ rest))) := by
          rw [renderInst_rep_core K n hK] at hlooks
          simpa [List.append_assoc] using hlooks
        obtain ⟨K', ts1, hrun, hlk1, hcase⟩ :=
          parseInst_core N IHg K hK (by omega) f2 ts _ (by omega) hlooks2
        obtain ⟨ts', hms, hlk'⟩ := suffix_rep ts1 K' n rest hlk1 hb
        refine ⟨.Repeat K' n, ts', ?_, ?_, hlk'⟩
        · rw [hrun]
          exact okSuffixed_eq ts1 K' _ ts' hms
        · rcases hcase with hKK | ⟨gl, l2, hgl, hgl2, hne2, hrb⟩
          · rw [hKK]
          · subst hgl
            subst hgl2
            rw [renderInst_rep_group, renderInst_rep_group, hrb]
      | mr K hK =>
        have hszm : instSize (Instruction.IntoMagicRing K) =
            instSize K + 1 := by
          rw [instSize]
        have hlooks2 : Looks ts
            (renderCore K ++ ([' ', 'i', 'n', ' ', 'm', 'r'] ++ rest)) := by
          rw [renderInst_mr_core K hK] at hlooks
          simpa [List.append_assoc] using hlooks
        obtain ⟨K', ts1, hrun, hlk1, hcase⟩ :=
          parseInst_core N IHg K hK (by omega) f2 ts _ (by omega) hlooks2
        obtain ⟨ts', hms, hlk'⟩ := suffix_mr ts1 K' rest hlk1
        refine ⟨.IntoMagicRing K', ts', ?_, ?_, hlk'⟩
        · rw [hrun]
          exact okSuffixed_eq ts1 K' _ ts' hms
        · rcases hcase with hKK | ⟨gl, l2, hgl, hgl2, hne2, hrb⟩
          · rw [hKK]
          · subst hgl
            subst hgl2
            rw [renderInst_mr_group, renderInst_mr_group, hrb]
      | mrRep K n hK =>
        have hszmr : instSize (Instruction.IntoMagicRing
            (Instruction.Repeat K n)) = instSize K + 2 := by
          rw [instSize, instSize]
        have hlooks2 : Looks ts (renderCore K ++ (' ' :: (natDecimal n ++
            ([' ', 'i', 'n', ' ', 'm', 'r'] ++ rest)))) := by
          rw [renderInst_mrrep_core K n hK] at hlooks
          simpa [List.append_assoc] using hlooks
        obtain ⟨K', ts1, hrun, hlk1, hcase⟩ :=
          parseInst_core N IHg K hK (by omega) f2 ts _ (by omega) hlooks2
        obtain ⟨ts', hms, hlk'⟩ := suffix_repmr ts1 K' n rest hlk1
        refine ⟨.IntoMagicRing (.Repeat K' n), ts', ?_, ?_, hlk'⟩
        · rw [hrun]
          exact okSuffixed_eq ts1 K' _ ts' hms
        · rcases hcase with hKK | ⟨gl, l2, hgl, hgl2, hne2, hrb⟩
          · rw [hKK]
          · subst hgl
            subst hgl2
            rw [renderInst_mr _ (notGroup_rep _ n),
              renderInst_mr _ (notGroup_rep _ n),
              renderInst_rep_group, renderInst_rep_group, hrb]
      | comment s hp hn2 =>
        obtain ⟨ln, co, hnext⟩ := looks_next ts _ hlooks
        have harr : renderInst (.Comment s) ++ rest =
            '%' :: ' ' :: (s ++ (' ' :: '%' :: rest)) := by
          rw [renderInst_comment]
          simp
        rw [harr] at hnext
        obtain ⟨ln', co', hcl⟩ := lexNext_comment s rest ln co hp hn2
        rw [hcl] at hnext
        simp only [] at hnext
        refine ⟨.Comment s, ⟨⟨rest, ln', co'⟩, none⟩, ?_, rfl,
          looks_fresh _ _ _⟩
        rw [parseInst, hnext]
      | skipInst n =>
        obtain ⟨ln, co, hnext⟩ := looks_next ts _ hlooks
        have harr : renderInst (.Skip n) ++ rest =
            ['s', 'k', 'i', 'p'] ++ (' ' :: (natDecimal n ++ rest)) := by
          rw [renderInst_skip]
          simp
        rw [harr, lexNext_kw_skipkw] at hnext
        simp only [] at hnext
        have hnum : lexNext ⟨' ' :: (natDecimal n ++ rest), ln, co + 4⟩ =
            (some ⟨.Number n, ln, co + 4 + 1⟩,
              ⟨rest, ln, co + 4 + 1 + (natDecimal n).length⟩) := by
          rw [lexNext_space,
            lexNext_number n rest ln (co + 4 + 1) (boundary_not_digit rest hb)]
        have hst2 : streamNext
            (⟨⟨' ' :: (natDecimal n ++ rest), ln, co + 4⟩, none⟩ :
              TokenStream) =
            (some ⟨.Number n, ln, co + 4 + 1⟩,
              ⟨⟨rest, ln, co + 4 + 1 + (natDecimal n).length⟩, none⟩) := by
          rw [streamNext_none_buf, hnum]
        refine ⟨.Skip n,
          ⟨⟨rest, ln, co + 4 + 1 + (natDecimal n).length⟩, none⟩, ?_, rfl,
          looks_fresh _ _ _⟩
        rw [parseInst, hnext]
        simp only []
        rw [hst2]
    have hS3 : ∀ l, WFList l → l ≠ [] → instSizeList l ≤ N →
        ParseGroupOK l := by
      intro l hwfl hlne hsz f acc ts rest hf hlooks hb
      cases l with
      | nil => exact absurd rfl hlne
      | cons x tail =>
        obtain ⟨hx, htail⟩ := WFList_cons_inv x tail hwfl
        have hsz_eq : instSizeList (x :: tail) =
            instSize x + instSizeList tail := by
          rw [instSizeList]
        obtain ⟨f2, rfl⟩ : ∃ f2, f = f2 + 1 := by
          cases f with
          | zero => omega
          | succ f2 => exact ⟨f2, rfl⟩
        by_cases hxg : ∀ gl, x ≠ Instruction.Group gl
        · have hsx : instSize x ≤ N := by
            have h0 := hsz
            rw [hsz_eq] at h0
            omega
          have hInst := hS2 x hx hxg hsx
          have hlooks2 : Looks ts
              (renderInst x ++ (renderTail tail ++ rest)) := by
            have harr : renderBody (x :: tail) ++ rest =
                renderInst x ++ (renderTail tail ++ rest) := by
              rw [renderBody]
              simp
            rw [harr] at hlooks
            exact hlooks
          have hbnd : Boundary (renderTail tail ++ rest) := by
            cases tail with
            | nil =>
              rw [show renderTail [] ++ rest = rest from by
                rw [renderTail]; simp]
              exact groupBoundary_boundary rest hb
            | cons y ys =>
              rw [renderTail_cons_body]
              exact Or.inr ⟨(' ' :: renderBody (y :: ys)) ++ rest,
                Or.inl (by simp)⟩
          obtain ⟨i', ts1, hpi, hri, hlk1⟩ :=
            hInst f2 ts (renderTail tail ++ rest)
              (by rw [hsz_eq] at hf; omega) hlooks2 hbnd
          cases tail with
          | nil =>
            have hlk1' : Looks ts1 rest := by
              simpa [renderTail] using hlk1
            rcases peek_groupBoundary ts1 rest hlk1' hb with
              ⟨ts2, hpk, hlk2⟩ | ⟨t, ts2, hpk, hnc, hlk2⟩
            · refine ⟨[i'], ts2, ?_, by simp, ?_, hlk2⟩
              · rw [parseGroupAux_succ, hpi]
                simp only []
                rw [hpk]
              · rw [renderBody, renderBody, hri]
            · refine ⟨[i'], ts2, ?_, by simp, ?_, hlk2⟩
              · rw [parseGroupAux_succ, hpi]
                simp only []
                rw [hpk]
                simp only []
                rw [if_neg hnc]
              · rw [renderBody, renderBody, hri]
          | cons y ys =>
            have hlk1' : Looks ts1
                (',' :: (' ' :: (renderBody (y :: ys) ++ rest))) := by
              have harr : renderTail (y :: ys) ++ rest =
                  ',' :: (' ' :: (renderBody (y :: ys) ++ rest)) := by
                rw [renderTail_cons_body]
                simp
              rw [harr] at hlk1
              exact hlk1
            obtain ⟨t, ts2, ln3, co3, hpk, hkc, hside⟩ :=
              peek_comma ts1 _ hlk1'
            have hlkA : Looks ((streamNext ts2).2)
                (renderBody (y :: ys) ++ rest) := by
              rw [hside]
              exact looks_space _ ln3 co3
            have hstlt : instSizeList (y :: ys) < N := by
              have h1 := instSize_pos x
              have h0 := hsz
              rw [hsz_eq] at h0
              omega
            obtain ⟨l'', ts'', hpg2, hne'', hrb2, hlk''⟩ :=
              IHg (y :: ys) htail (by simp) hstlt f2 (acc ++ [i'])
                ((streamNext ts2).2) rest
                (by have h1 := instSize_pos x; rw [hsz_eq] at hf; omega)
                hlkA hb
            refine ⟨i' :: l'', ts'', ?_, by simp, ?_, hlk''⟩
            · rw [parseGroupAux_succ, hpi]
              simp only []
              rw [hpk]
              simp only []
              rw [if_pos hkc]
              rw [hpg2]
              simp
            · rw [renderBody, renderBody, hri,
                renderTail_eq_of_body l'' (y :: ys) hne'' (by simp) hrb2]
        · push_neg at hxg
          obtain ⟨gl, hgl⟩ := hxg
          subst hgl
          obtain ⟨hgne, hglwf⟩ := WFInst_group_inv gl hx
          have hcons : instSizeList (Instruction.Group gl :: tail) =
              (instSizeList gl + 1) + instSizeList tail := by
            simp [instSizeList, instSize]
          have hlooks2 : Looks ts (renderBody (gl ++ tail) ++ rest) := by
            rw [← renderBody_splice gl tail hgne]
            exact hlooks
          have hszlt : instSizeList (gl ++ tail) < N := by
            rw [instSizeList_append]
            omega
          obtain ⟨l', ts', hpg, hlne', hrb, hlk'⟩ :=
            IHg (gl ++ tail) (WFList_append _ _ hglwf htail)
              (by simp [hgne]) hszlt (f2 + 1) acc ts rest
              (by rw [instSizeList_append]; omega) hlooks2 hb
          exact ⟨l', ts', hpg, hlne',
            by rw [hrb, renderBody_splice gl tail hgne], hlk'⟩
    exact ⟨hS2, hS3⟩

theorem digit_not_ws (c : Char) (h : isDigitChar c = true) :
    isRustWhitespace c = false := by
  rw [isDigitChar] at h
  simp only [Bool.and_eq_true, decide_eq_true_eq] at h
  rw [isRustWhitespace]
  simp only [Bool.or_eq_false_iff, Bool.and_eq_false_iff,
    beq_eq_false_iff_ne, ne_eq, decide_eq_false_iff_not, not_le]
  omega

theorem ne_nil_of_getLast? (l : List Char) (c : Char)
    (h : l.getLast? = some c) : l ≠ [] := by
  intro he
  subst he
  simp at h

theorem natDecimal_last (n : Nat) :
    ∃ c, (natDecimal n).getLast? = some c ∧ isRustWhitespace c = false := by
  have hne := natDecimal_ne_nil n
  rcases hl : (natDecimal n).getLast? with _ | c
  · have hs := List.getLast?_isSome.mpr hne
    rw [hl] at hs
    simp at hs
  · exact ⟨c, rfl, digit_not_ws c
      (natDecimal_digits n c (List.mem_of_mem_getLast? hl))⟩

theorem render_last (N : Nat) :
    (∀ i, WFInst i → instSize i ≤ N →
      ∃ c, (renderInst i).getLast? = some c ∧ isRustWhitespace c = false) ∧
    (∀ l, WFList l → l ≠ [] → instSizeList l ≤ N →
      ∃ c, (renderBody l).getLast? = some c ∧ isRustWhitespace c = false) := by
  induction N using Nat.strong_induction_on with
  | _ N IH =>
    have hP1 : ∀ i, WFInst i → instSize i ≤ N →
        ∃ c, (renderInst i).getLast? = some c ∧
          isRustWhitespace c = false := by
      intro i hwf hsz
      cases hwf with
      | core K hK =>
        cases hK with
        | ch => exact ⟨'h', by decide, by decide⟩
        | sc => exact ⟨'c', by decide, by decide⟩
        | fpsc => exact ⟨'c', by decide, by decide⟩
        | bpsc => exact ⟨'c', by decide, by decide⟩
        | blsc => exact ⟨'c', by decide, by decide⟩
        | inc => exact ⟨'c', by decide, by decide⟩
        | flinc => exact ⟨'c', by decide, by decide⟩
        | blinc => exact ⟨'c', by decide, by decide⟩
        | dec => exact ⟨'c', by decide, by decide⟩
        | group gl hgne hglwf =>
          have hszg : instSize (Instruction.Group gl) =
              instSizeList gl + 1 := by
            rw [instSize]
          have hlt : instSizeList gl < N := by omega
          obtain ⟨c, hc1, hc2⟩ :=
            (IH (instSizeList gl) hlt).2 gl hglwf hgne le_rfl
          exact ⟨c, by rw [renderInst_group]; exact hc1, hc2⟩
      | rep K n hK =>
        obtain ⟨c, hc1, hc2⟩ := natDecimal_last n
        refine ⟨c, ?_, hc2⟩
        rw [renderInst_rep_core K n hK,
          List.getLast?_append_of_ne_nil _ (by simp),
          show (' ' :: natDecimal n).getLast? = (natDecimal n).getLast? from
            List.getLast?_append_of_ne_nil [' ']
              (natDecimal_ne_nil n)]
        exact hc1
      | mr K hK =>
        refine ⟨'r', ?_, by decide⟩
        rw [renderInst_mr_core K hK,
          List.getLast?_append_of_ne_nil _ (by simp)]
        decide
      | mrRep K n hK =>
        refine ⟨'r', ?_, by decide⟩
        rw [renderInst_mrrep_core K n hK,
          List.getLast?_append_of_ne_nil _ (by simp),
          show ((' ' :: natDecimal n) ++
              [' ', 'i', 'n', ' ', 'm', 'r']).getLast? =
            ([' ', 'i', 'n', ' ', 'm', 'r'] : List Char).getLast? from
              List.getLast?_append_of_ne_nil _ (by simp)]
        decide
      | comment s hp hn2 =>
        refine ⟨'%', ?_, by decide⟩
        rw [renderInst_comment,
          show ('%' :: ' ' :: (s ++ [' ', '%'])).getLast? =
            (s ++ [' ', '%']).getLast? from
              List.getLast?_append_of_ne_nil ['%', ' ']
                (by simp),
          List.getLast?_append_of_ne_nil _ (by simp)]
        decide
      | skipInst n =>
        obtain ⟨c, hc1, hc2⟩ := natDecimal_last n
        refine ⟨c, ?_, hc2⟩
        rw [renderInst_skip,
          List.getLast?_append_of_ne_nil _ (natDecimal_ne_nil n)]
        exact hc1
    refine ⟨hP1, ?_⟩
    intro l hwfl hlne hsz
    cases l with
    | nil => exact absurd rfl hlne
    | cons x xs =>
      obtain ⟨hx, hxs⟩ := WFList_cons_inv x xs hwfl
      have hsz_eq : instSizeList (x :: xs) =
          instSize x + instSizeList xs := by
        rw [instSizeList]
      cases xs with
      | nil =>
        obtain ⟨c, hc1, hc2⟩ := hP1 x hx (by omega)
        refine ⟨c, ?_, hc2⟩
        rw [renderBody, renderTail]
        simpa using hc1
      | cons y ys =>
        have hlt : instSizeList (y :: ys) < N := by
          have := instSize_pos x
          omega
        obtain ⟨c, hc1, hc2⟩ :=
          (IH (instSizeList (y :: ys)) hlt).2 (y :: ys) hxs (by simp) le_rfl
        refine ⟨c, ?_, hc2⟩
        rw [renderBody, renderTail_cons_body,
          List.getLast?_append_of_ne_nil _ (by simp),
          show (',' :: ' ' :: renderBody (y :: ys)).getLast? =
            (renderBody (y :: ys)).getLast? from
              List.getLast?_append_of_ne_nil [',', ' ']
                (ne_nil_of_getLast? _ c hc1)]
        exact hc1

theorem renderRounds_last (r : List Instruction)
    (hwf : ∀ x ∈ r, RoundWF x) (hne : r ≠ []) :
    ∃ c, (renderRounds r).getLast? = some c ∧
      isRustWhitespace c = false := by
  induction r with
  | nil => exact absurd rfl hne
  | cons x rest ih =>
    have hx : WFInst x := by
      obtain ⟨l, hxl, hlne, hlwf⟩ := hwf x (by simp)
      rw [hxl]
      exact .core _ (.group l hlne hlwf)
    cases rest with
    | nil =>
      obtain ⟨c, hc1, hc2⟩ :=
        (render_last (instSize x)).1 x hx le_rfl
      refine ⟨c, ?_, hc2⟩
      rw [renderRounds]
      simp only [renderRoundsTail]
      simpa using hc1
    | cons y rest2 =>
      obtain ⟨c, hc1, hc2⟩ := ih (fun z hz => hwf z (by simp [hz]))
        (by simp)
      refine ⟨c, ?_, hc2⟩
      rw [renderRounds] at hc1 ⊢
      rw [show renderInst x ++ renderRoundsTail (y :: rest2) =
          renderInst x ++ ('\n' :: (renderInst y ++
            renderRoundsTail rest2)) from by rw [renderRoundsTail]; simp,
        List.getLast?_append_of_ne_nil _ (by simp),
        show ('\n' :: (renderInst y ++ renderRoundsTail rest2)).getLast? =
          (renderInst y ++ renderRoundsTail rest2).getLast? from
            List.getLast?_append_of_ne_nil ['\n']
              (ne_nil_of_getLast? _ c hc1)]
      exact hc1

theorem trimEnd_render (r : List Instruction) (hwf : ∀ x ∈ r, RoundWF x) :
    trimEndRust (renderRounds r) = renderRounds r := by
  cases hr : r with
  | nil => rfl
  | cons x rest =>
    rw [← hr]
    obtain ⟨c, hc1, hc2⟩ := renderRounds_last r hwf (by rw [hr]; simp)
    rw [trimEndRust, dropWhile_eq_self_of_head _ _ (by
      intro a ha
      rw [List.head?_reverse, hc1] at ha
      injection ha with ha
      rw [← ha]
      exact hc2), List.reverse_reverse]

mutual

/-- Bare-group flattening of an instruction tree (a proof device): the
serializer drops the brackets of an unsuffixed group, so a tree and its
flattening render identically, and a flattened tree has at most as many
nodes as its rendering has characters.  Fuel bounds the recursion depth. -/
def flatInst : Nat → Instruction → Instruction
  | 0, i => i
  | f + 1, .Repeat K n => .Repeat (flatInst f K) n
  | f + 1, .IntoMagicRing K => .IntoMagicRing (flatInst f K)
  | f + 1, .Group gl => .Group (flatList f gl)
  | _ + 1, i => i

/-- Bare-group flattening of an instruction list: an unsuffixed group member
is replaced by its children, spliced into the list. -/
def flatList : Nat → List Instruction → List Instruction
  | 0, l => l
  | _ + 1, [] => []
  | f + 1, .Group gl :: xs => flatList f (gl ++ xs)
  | f + 1, x :: xs => flatInst f x :: flatList f xs

end

theorem flatInst_stitch (f : Nat) (K : Instruction) (hK : WFCore K)
    (hng : ∀ gl, K ≠ .Group gl) : flatInst f K = K := by
  cases f <;> cases hK <;> first | rfl | exact absurd rfl (hng _)

theorem flatList_cons_ng (f : Nat) (x : Instruction) (xs : List Instruction)
    (hng : ∀ gl, x ≠ .Group gl) :
    flatList (f + 1) (x :: xs) = flatInst f x :: flatList f xs := by
  cases x <;> first | rfl | exact absurd rfl (hng _)

theorem flatList_nil (f : Nat) : flatList f [] = [] := by
  cases f <;> rfl

theorem flat_spec (N : Nat) :
    (∀ i, WFInst i → (∀ gl, i ≠ .Group gl) → instSize i ≤ N →
      ∀ f, 2 * instSize i ≤ f →
        WFInst (flatInst f i) ∧ (∀ gl, flatInst f i ≠ .Group gl) ∧
        renderInst (flatInst f i) = renderInst i ∧
        instSize (flatInst f i) + 1 ≤ (renderInst i).length) ∧
    (∀ l, WFList l → instSizeList l ≤ N →
      ∀ f, 2 * instSizeList l + 1 ≤ f →
        WFList (flatList f l) ∧ (l ≠ [] → flatList f l ≠ []) ∧
        renderBody (flatList f l) = renderBody l ∧
        (l ≠ [] →
          instSizeList (flatList f l) + 1 ≤ (renderBody l).length)) := by
  induction N using Nat.strong_induction_on with
  | _ N IH =>
    have hdpos : ∀ n, 1 ≤ (natDecimal n).length := fun n =>
      List.length_pos.mpr (natDecimal_ne_nil n)
    have hP1 : ∀ i, WFInst i → (∀ gl, i ≠ .Group gl) → instSize i ≤ N →
        ∀ f, 2 * instSize i ≤ f →
          WFInst (flatInst f i) ∧ (∀ gl, flatInst f i ≠ .Group gl) ∧
          renderInst (flatInst f i) = renderInst i ∧
          instSize (flatInst f i) + 1 ≤ (renderInst i).length := by
      intro i hwf hng hsz f hf
      cases hwf with
      | core K hK =>
        rw [flatInst_stitch f i hK hng]
        refine ⟨.core i hK, hng, rfl, ?_⟩
        cases hK <;> first | exact absurd rfl (hng _) | decide
      | rep K n hK =>
        have hszr : instSize (Instruction.Repeat K n) = instSize K + 1 := by
          rw [instSize]
        have hKpos := instSize_pos K
        obtain ⟨f1, rfl⟩ : ∃ f1, f = f1 + 1 := by
          cases f with
          | zero => omega
          | succ f1 => exact ⟨f1, rfl⟩
        rw [show flatInst (f1 + 1) (.Repeat K n) =
          .Repeat (flatInst f1 K) n from rfl]
        by_cases hKg : ∀ gl, K ≠ Instruction.Group gl
        · rw [flatInst_stitch f1 K hK hKg]
          refine ⟨.rep K n hK, fun gl h => Instruction.noConfusion h,
            rfl, ?_⟩
          have hKlen : instSize K + 1 ≤ (renderCore K).length := by
            cases hK <;> first | exact absurd rfl (hKg _) | decide
          have hd := hdpos n
          rw [renderInst_rep_core K n hK]
          simp only [List.length_append, List.length_cons]
          omega
        · push_neg at hKg
          obtain ⟨gl, rfl⟩ := hKg
          obtain ⟨hgne, hglwf⟩ := WFCore_group_inv gl hK
          have hszg : instSize (Instruction.Group gl) =
              instSizeList gl + 1 := by
            rw [instSize]
          obtain ⟨f2, rfl⟩ : ∃ f2, f1 = f2 + 1 := by
            cases f1 with
            | zero => omega
            | succ f2 => exact ⟨f2, rfl⟩
          rw [show flatInst (f2 + 1) (.Group gl) =
            .Group (flatList f2 gl) from rfl]
          obtain ⟨hW2, hne2', hrb2, hszb2⟩ :=
            (IH (instSizeList gl) (by omega)).2 gl hglwf le_rfl f2
              (by omega)
          have hne2 := hne2' hgne
          have hszb := hszb2 hgne
          refine ⟨.rep _ n (.group _ hne2 hW2),
            fun gl2 h => Instruction.noConfusion h, ?_, ?_⟩
          · rw [renderInst_rep_group, renderInst_rep_group, hrb2]
          · have hd := hdpos n
            rw [renderInst_rep_group]
            rw [show instSize (Instruction.Repeat
                (.Group (flatList f2 gl)) n) =
              instSizeList (flatList f2 gl) + 2 from by
                rw [instSize, instSize]]
            simp only [List.length_cons, List.length_append]
            omega
      | mr K hK =>
        have hszr : instSize (Instruction.IntoMagicRing K) =
            instSize K + 1 := by
          rw [instSize]
        have hKpos := instSize_pos K
        obtain ⟨f1, rfl⟩ : ∃ f1, f = f1 + 1 := by
          cases f with
          | zero => omega
          | succ f1 => exact ⟨f1, rfl⟩
        rw [show flatInst (f1 + 1) (.IntoMagicRing K) =
          .IntoMagicRing (flatInst f1 K) from rfl]
        by_cases hKg : ∀ gl, K ≠ Instruction.Group gl
        · rw [flatInst_stitch f1 K hK hKg]
          refine ⟨.mr K hK, fun gl h => Instruction.noConfusion h, rfl, ?_⟩
          have hKlen : instSize K + 1 ≤ (renderCore K).length := by
            cases hK <;> first | exact absurd rfl (hKg _) | decide
          rw [renderInst_mr_core K hK]
          simp only [List.length_append, List.length_cons]
          omega
        · push_neg at hKg
          obtain ⟨gl, rfl⟩ := hKg
          obtain ⟨hgne, hglwf⟩ := WFCore_group_inv gl hK
          have hszg : instSize (Instruction.Group gl) =
              instSizeList gl + 1 := by
            rw [instSize]
          obtain ⟨f2, rfl⟩ : ∃ f2, f1 = f2 + 1 := by
            cases f1 with
            | zero => omega
            | succ f2 => exact ⟨f2, rfl⟩
          rw [show flatInst (f2 + 1) (.Group gl) =
            .Group (flatList f2 gl) from rfl]
          obtain ⟨hW2, hne2', hrb2, hszb2⟩ :=
            (IH (instSizeList gl) (by omega)).2 gl hglwf le_rfl f2
              (by omega)
          have hne2 := hne2' hgne
          have hszb := hszb2 hgne
          refine ⟨.mr _ (.group _ hne2 hW2),
            fun gl2 h => Instruction.noConfusion h, ?_, ?_⟩
          · rw [renderInst_mr_group, renderInst_mr_group, hrb2]
          · rw [renderInst_mr_group]
            rw [show instSize (Instruction.IntoMagicRing
                (.Group (flatList f2 gl))) =
              instSizeList (flatList f2 gl) + 2 from by
                rw [instSize, instSize]]
            simp only [List.length_cons, List.length_append]
            omega
      | mrRep K n hK =>
        have hszr : instSize (Instruction.IntoMagicRing
            (Instruction.Repeat K n)) = instSize K + 2 := by
          rw [instSize, instSize]
        have hKpos := instSize_pos K
        obtain ⟨f1, rfl⟩ : ∃ f1, f = f1 + 1 := by
          cases f with
          | zero => omega
          | succ f1 => exact ⟨f1, rfl⟩
        obtain ⟨f2, rfl⟩ : ∃ f2, f1 = f2 + 1 := by
          cases f1 with
          | zero => omega
          | succ f2 => exact ⟨f2, rfl⟩
        rw [show flatInst (f2 + 1 + 1) (.IntoMagicRing (.Repeat K n)) =
          .IntoMagicRing (.Repeat (flatInst f2 K) n) from rfl]
        by_cases hKg : ∀ gl, K ≠ Instruction.Group gl
        · rw [flatInst_stitch f2 K hK hKg]
          refine ⟨.mrRep K n hK, fun gl h => Instruction.noConfusion h,
            rfl, ?_⟩
          have hKlen : instSize K + 1 ≤ (renderCore K).length := by
            cases hK <;> first | exact absurd rfl (hKg _) | decide
          have hd := hdpos n
          rw [renderInst_mrrep_core K n hK]
          simp only [List.length_append, List.length_cons]
          omega
        · push_neg at hKg
          obtain ⟨gl, rfl⟩ := hKg
          obtain ⟨hgne, hglwf⟩ := WFCore_group_inv gl hK
          have hszg : instSize (Instruction.Group gl) =
              instSizeList gl + 1 := by
            rw [instSize]
          obtain ⟨f3, rfl⟩ : ∃ f3, f2 = f3 + 1 := by
            cases f2 with
            | zero => omega
            | succ f3 => exact ⟨f3, rfl⟩
          rw [show flatInst (f3 + 1) (.Group gl) =
            .Group (flatList f3 gl) from rfl]
          obtain ⟨hW2, hne2', hrb2, hszb2⟩ :=
            (IH (instSizeList gl) (by omega)).2 gl hglwf le_rfl f3
              (by omega)
          have hne2 := hne2' hgne
          have hszb := hszb2 hgne
          refine ⟨.mrRep _ n (.group _ hne2 hW2),
            fun gl2 h => Instruction.noConfusion h, ?_, ?_⟩
          · rw [renderInst_mr _ (notGroup_rep _ n),
              renderInst_mr _ (notGroup_rep _ n),
              renderInst_rep_group, renderInst_rep_group, hrb2]
          · rw [renderInst_mr _ (notGroup_rep _ n), renderInst_rep_group]
            rw [show instSize (Instruction.IntoMagicRing (.Repeat
                (.Group (flatList f3 gl)) n)) =
              instSizeList (flatList f3 gl) + 3 from by
                rw [instSize, instSize, instSize]]
            simp only [List.length_cons, List.length_append]
            omega
      | comment s hp hn2 =>
        rw [show flatInst f (.Comment s) = .Comment s from by
          cases f <;> rfl]
        refine ⟨.comment s hp hn2, fun gl h => Instruction.noConfusion h,
          rfl, ?_⟩
        rw [show instSize (Instruction.Comment s) = 1 from rfl,
          renderInst_comment]
        simp only [List.length_cons, List.length_append]
        omega
      | skipInst n =>
        rw [show flatInst f (.Skip n) = .Skip n from by cases f <;> rfl]
        refine ⟨.skipInst n, fun gl h => Instruction.noConfusion h,
          rfl, ?_⟩
        rw [show instSize (Instruction.Skip n) = 1 from rfl,
          renderInst_skip]
        simp only [List.length_cons, List.length_append]
        omega
    refine ⟨hP1, ?_⟩
    intro l hwfl hsz f hf
    cases l with
    | nil =>
      rw [flatList_nil]
      exact ⟨.nil, fun h => absurd rfl h, rfl, fun h => absurd rfl h⟩
    | cons x xs =>
      obtain ⟨hx, hxs⟩ := WFList_cons_inv x xs hwfl
      have hsz_eq : instSizeList (x :: xs) =
          instSize x + instSizeList xs := by
        rw [instSizeList]
      have hxpos := instSize_pos x
      obtain ⟨f1, rfl⟩ : ∃ f1, f = f1 + 1 := by
        cases f with
        | zero => omega
        | succ f1 => exact ⟨f1, rfl⟩
      by_cases hxg : ∀ gl, x ≠ Instruction.Group gl
      · rw [flatList_cons_ng f1 x xs hxg]
        obtain ⟨hW1, hng1, hr1, hs1⟩ := hP1 x hx hxg (by omega) f1
          (by omega)
        obtain ⟨hW2, hne2, hr2, hs2⟩ :=
          (IH (instSizeList xs) (by omega)).2 xs hxs le_rfl f1 (by omega)
        have hrt : renderTail (flatList f1 xs) = renderTail xs := by
          cases xs with
          | nil => rw [flatList_nil]
          | cons z zs =>
            exact renderTail_eq_of_body _ _ (hne2 (by simp)) (by simp) hr2
        refine ⟨.cons _ _ hW1 hW2, fun h => by simp, ?_, ?_⟩
        · rw [renderBody, renderBody, hr1, hrt]
        · intro h0
          have hlenb : (renderBody (x :: xs)).length =
              (renderInst x).length + (renderTail xs).length := by
            rw [renderBody]
            simp
          have hszc : instSizeList (flatInst f1 x :: flatList f1 xs) =
              instSize (flatInst f1 x) +
                instSizeList (flatList f1 xs) := by
            rw [instSizeList]
          cases xs with
          | nil =>
            rw [flatList_nil] at hszc ⊢
            rw [show instSizeList ([] : List Instruction) = 0 from rfl]
              at hszc
            rw [show renderTail ([] : List Instruction) = [] from rfl]
              at hlenb
            simp at hlenb
            omega
          | cons z zs =>
            have hs2' := hs2 (by simp)
            have hlent : (renderTail (z :: zs)).length =
                (renderBody (z :: zs)).length + 2 := by
              rw [renderTail_cons_body]
              simp
            omega
      · push_neg at hxg
        obtain ⟨gl, rfl⟩ := hxg
        obtain ⟨hgne, hglwf⟩ := WFInst_group_inv gl hx
        rw [show flatList (f1 + 1) (.Group gl :: xs) =
          flatList f1 (gl ++ xs) from rfl]
        have hcons : instSizeList (Instruction.Group gl :: xs) =
            (instSizeList gl + 1) + instSizeList xs := by
          simp [instSizeList, instSize]
        have happ : instSizeList (gl ++ xs) =
            instSizeList gl + instSizeList xs := instSizeList_append gl xs
        obtain ⟨hW, hne', hr, hs⟩ :=
          (IH (instSizeList (gl ++ xs)) (by omega)).2 (gl ++ xs)
            (WFList_append _ _ hglwf hxs) le_rfl f1 (by omega)
        have hgxne : gl ++ xs ≠ [] := by simp [hgne]
        have hsplice := renderBody_splice gl xs hgne
        refine ⟨hW, fun h0 => hne' hgxne, ?_, fun h0 => ?_⟩
        · rw [hr, hsplice]
        · rw [hsplice]
          exact hs hgxne

theorem flat_rounds (r : List Instruction) (hwf : ∀ x ∈ r, RoundWF x) :
    ∃ rF, (∀ x ∈ rF, RoundWF x) ∧
      renderRounds rF = renderRounds r ∧
      renderRoundsTail rF = renderRoundsTail r ∧
      instSizeList rF ≤ (renderRounds r).length ∧
      (rF = [] ↔ r = []) := by
  induction r with
  | nil => exact ⟨[], by simp, rfl, rfl, by simp [instSizeList], by simp⟩
  | cons x rest ih =>
    obtain ⟨l0, hxl, hl0ne, hl0wf⟩ := hwf x (by simp)
    obtain ⟨rF', hwf', hrr', hrt', hsz', hiff'⟩ :=
      ih (fun z hz => hwf z (by simp [hz]))
    obtain ⟨hW, hne', hr, hs⟩ :=
      (flat_spec (instSizeList l0)).2 l0 hl0wf le_rfl
        (2 * instSizeList l0 + 1) le_rfl
    have hne := hne' hl0ne
    have hsb := hs hl0ne
    refine ⟨.Group (flatList (2 * instSizeList l0 + 1) l0) :: rF',
      ?_, ?_, ?_, ?_, by simp⟩
    · intro z hz
      rcases List.mem_cons.mp hz with hz | hz
      · exact ⟨_, hz, hne, hW⟩
      · exact hwf' z hz
    · rw [renderRounds, renderRounds, hxl, renderInst_group,
        renderInst_group, hr, hrt']
    · rw [renderRoundsTail, renderRoundsTail, hxl, renderInst_group,
        renderInst_group, hr, hrt']
    · have hlen : (renderRounds (x :: rest)).length =
          (renderInst x).length + (renderRoundsTail rest).length := by
        rw [renderRounds]
        simp
      have hlx : (renderInst x).length = (renderBody l0).length := by
        rw [hxl, renderInst_group]
      have hszc : instSizeList (.Group (flatList
            (2 * instSizeList l0 + 1) l0) :: rF') =
          (instSizeList (flatList (2 * instSizeList l0 + 1) l0) + 1) +
            instSizeList rF' := by
        simp [instSizeList, instSize]
      cases rest with
      | nil =>
        have hrF' : rF' = [] := hiff'.mpr rfl
        subst hrF'
        rw [show instSizeList ([] : List Instruction) = 0 from rfl] at hszc
        rw [show renderRoundsTail ([] : List Instruction) = [] from rfl]
          at hlen
        simp at hlen
        omega
      | cons y rest2 =>
        have hlent : (renderRoundsTail (y :: rest2)).length =
            (renderRounds (y :: rest2)).length + 1 := by
          rw [renderRoundsTail, renderRounds]
          simp
        omega

theorem skipNewlines_noop (f : Nat) (ts : TokenStream) (A : List Char)
    (h : Looks ts A)
    (hA : ∀ ln co, ∃ t lx', lexNext ⟨A, ln, co⟩ = (some t, lx') ∧
      t.kind ≠ .Newline) :
    Looks (skipNewlines f ts) A := by
  cases f with
  | zero => exact h
  | succ f =>
    obtain ⟨ln, co, hpk⟩ := looks_peek ts A h
    obtain ⟨t, lx', hlx, hnt⟩ := hA ln co
    rw [skipNewlines, hpk, streamPeek_none_buf, hlx]
    simp only []
    rw [if_neg hnt]
    have hq := looks_peeked A ln co
    rw [streamPeek_none_buf, hlx] at hq
    exact hq

theorem skipNewlines_empty (f : Nat) (ts : TokenStream)
    (h : Looks ts []) : Looks (skipNewlines f ts) [] := by
  cases f with
  | zero => exact h
  | succ f =>
    obtain ⟨ln, co, hpk⟩ := looks_peek ts [] h
    rw [skipNewlines, hpk, streamPeek_none_buf, lexNext_nil]
    simp only []
    exact ⟨ln, co, Or.inl rfl⟩

theorem skipNewlines_step (f : Nat) (ts : TokenStream) (A : List Char)
    (h : Looks ts ('\n' :: A))
    (hA : ∀ ln co, ∃ t lx', lexNext ⟨A, ln, co⟩ = (some t, lx') ∧
      t.kind ≠ .Newline) :
    Looks (skipNewlines (f + 1) ts) A := by
  obtain ⟨ln, co, hpk⟩ := looks_peek ts _ h
  rw [skipNewlines, hpk, streamPeek_none_buf, lexNext_newline]
  simp only []
  rw [if_pos trivial, streamNext_some_buf]
  exact skipNewlines_noop f _ A (looks_fresh A (ln + 1) 1) hA

theorem peek_empty (ts : TokenStream) (h : Looks ts []) :
    ∃ ln co, streamPeek ts = (none, ⟨⟨[], ln, co⟩, none⟩) ∧
      isEmptyTS (⟨⟨[], ln, co⟩, none⟩ : TokenStream) = true := by
  obtain ⟨ln, co, hpk⟩ := looks_peek ts [] h
  refine ⟨ln, co, ?_, rfl⟩
  rw [hpk, streamPeek_none_buf, lexNext_nil]

theorem peek_newline (ts : TokenStream) (A : List Char)
    (h : Looks ts ('\n' :: A)) :
    ∃ t ts2, streamPeek ts = (some t, ts2) ∧ t.kind = .Newline ∧
      Looks ts2 ('\n' :: A) := by
  obtain ⟨ln, co, hpk⟩ := looks_peek ts _ h
  refine ⟨⟨.Newline, ln, co⟩, (streamPeek ⟨⟨'\n' :: A, ln, co⟩, none⟩).2,
    ?_, rfl, looks_peeked _ ln co⟩
  rw [hpk, streamPeek_none_buf, lexNext_newline]

theorem peek_sometok (ts : TokenStream) (A : List Char)
    (h : Looks ts A)
    (hA : ∀ ln co, ∃ t lx', lexNext ⟨A, ln, co⟩ = (some t, lx') ∧
      t.kind ≠ .Newline) :
    ∃ t ts2, streamPeek ts = (some t, ts2) ∧ Looks ts2 A := by
  obtain ⟨ln, co, hpk⟩ := looks_peek ts _ h
  obtain ⟨t, lx', hlx, hnt⟩ := hA ln co
  refine ⟨t, (streamPeek ⟨⟨A, ln, co⟩, none⟩).2, ?_, looks_peeked _ ln co⟩
  rw [hpk, streamPeek_none_buf, hlx]

theorem parseRoundsAux_succ (f : Nat) (ts : TokenStream)
    (acc : List Instruction) :
    parseRoundsAux (f + 1) ts acc =
      match streamPeek ts with
      | (none, ts1) => (.ok acc, ts1)
      | (some _, ts1) =>
        match parseGroupAux f ts1 [] with
        | (.error e, ts2) => (.error e, ts2)
        | (.ok g, ts2) =>
          let acc1 := acc ++ [g]
          let (k, ts3) := streamPeek ts2
          let isNL : Bool :=
            match k with
            | some t => t.kind = .Newline
            | none => false
          if ¬ isNL ∧ ¬ isEmptyTS ts3 then (.error (currentLoc ts3), ts3)
          else parseRoundsAux f (skipNewlines f ts3) acc1 := rfl

theorem parseRoundsAux_render (rounds : List Instruction)
    (hwf : ∀ x ∈ rounds, RoundWF x) :
    ∀ f acc ts, 2 * instSizeList rounds + 1 ≤ f →
      Looks ts (renderRounds rounds) →
      ∃ rounds2 ts', parseRoundsAux f ts acc =
          (.ok (acc ++ rounds2), ts') ∧
        renderRounds rounds2 = renderRounds rounds ∧
        renderRoundsTail rounds2 = renderRoundsTail rounds ∧
        isEmptyTS ts' = true := by
  induction rounds with
  | nil =>
    intro f acc ts hf hlooks
    obtain ⟨f1, rfl⟩ : ∃ f1, f = f1 + 1 := by
      cases f with
      | zero => omega
      | succ f1 => exact ⟨f1, rfl⟩
    obtain ⟨ln, co, hpk, hemp⟩ := peek_empty ts hlooks
    refine ⟨[], ⟨⟨[], ln, co⟩, none⟩, ?_, rfl, rfl, hemp⟩
    rw [show acc ++ ([] : List Instruction) = acc from by simp,
      parseRoundsAux_succ, hpk]
  | cons x rest ih =>
    intro f acc ts hf hlooks
    obtain ⟨l0, hxl, hl0ne, hl0wf⟩ := hwf x (by simp)
    subst hxl
    have hsz_eq : instSizeList (Instruction.Group l0 :: rest) =
        (instSizeList l0 + 1) + instSizeList rest := by
      simp [instSizeList, instSize]
    obtain ⟨f1, rfl⟩ : ∃ f1, f = f1 + 1 := by
      cases f with
      | zero => omega
      | succ f1 => exact ⟨f1, rfl⟩
    have hrr : renderRounds (Instruction.Group l0 :: rest) =
        renderBody l0 ++ renderRoundsTail rest := by
      rw [renderRounds, renderInst_group]
    rw [hrr] at hlooks
    have hftb := firstTok_body (instSizeList l0) l0 le_rfl hl0wf hl0ne
    obtain ⟨t0, ts1, hpk0, hlk1⟩ := peek_sometok ts _ hlooks
      (fun ln co => hftb (renderRoundsTail rest) ln co)
    have hgb : GroupBoundary (renderRoundsTail rest) := by
      cases rest with
      | nil => exact Or.inl rfl
      | cons y ys =>
        have ht : renderRoundsTail (y :: ys) =
            '\n' :: (renderInst y ++ renderRoundsTail ys) := by
          rw [renderRoundsTail]
          simp
        exact Or.inr ⟨renderInst y ++ renderRoundsTail ys, Or.inl ht⟩
    obtain ⟨l', ts2, hpg, hl'ne, hrb, hlk2⟩ :=
      (parse_render (instSizeList l0)).2 l0 hl0wf hl0ne le_rfl f1 [] ts1
        (renderRoundsTail rest) (by omega) hlk1 hgb
    rw [List.nil_append] at hpg
    cases rest with
    | nil =>
      obtain ⟨ln, co, hpk2, hemp⟩ := peek_empty ts2 hlk2
      have hsk : Looks (skipNewlines f1
          (⟨⟨[], ln, co⟩, none⟩ : TokenStream)) [] :=
        skipNewlines_empty f1 _ (looks_fresh [] ln co)
      obtain ⟨rounds2, ts', hrec, hrr2, hrt2, hemp2⟩ :=
        ih (by simp) f1 (acc ++ [.Group l'])
          (skipNewlines f1 ⟨⟨[], ln, co⟩, none⟩) (by omega) hsk
      refine ⟨.Group l' :: rounds2, ts', ?_, ?_, ?_, hemp2⟩
      · rw [parseRoundsAux_succ, hpk0]
        simp only []
        rw [hpg]
        simp only []
        rw [hpk2]
        simp only []
        rw [if_neg (by simp [hemp]), hrec]
        simp
      · rw [renderRounds, renderRounds, renderInst_group,
          renderInst_group, hrb, hrt2]
      · rw [renderRoundsTail, renderRoundsTail, renderInst_group,
          renderInst_group, hrb, hrt2]
    | cons y ys =>
      have ht : renderRoundsTail (y :: ys) =
          '\n' :: (renderInst y ++ renderRoundsTail ys) := by
        rw [renderRoundsTail]
        simp
      rw [ht] at hlk2
      obtain ⟨t2, ts3, hpk2, hk2, hlk3⟩ := peek_newline ts2 _ hlk2
      obtain ⟨l1, hyl, hl1ne, hl1wf⟩ := hwf y (by simp)
      have hA : renderInst y ++ renderRoundsTail ys =
          renderBody l1 ++ renderRoundsTail ys := by
        rw [hyl, renderInst_group]
      rw [hA] at hlk3
      have hft1 := firstTok_body (instSizeList l1) l1 le_rfl hl1wf hl1ne
      have hylsz : instSizeList (y :: ys) =
          (instSizeList l1 + 1) + instSizeList ys := by
        rw [hyl]
        simp [instSizeList, instSize]
      obtain ⟨f2, rfl⟩ : ∃ f2, f1 = f2 + 1 := by
        cases f1 with
        | zero => omega
        | succ f2 => exact ⟨f2, rfl⟩
      have hsk : Looks (skipNewlines (f2 + 1) ts3)
          (renderBody l1 ++ renderRoundsTail ys) :=
        skipNewlines_step f2 ts3 _ hlk3
          (fun ln co => hft1 (renderRoundsTail ys) ln co)
      have hrw : renderRounds (y :: ys) =
          renderBody l1 ++ renderRoundsTail ys := by
        rw [renderRounds, hyl, renderInst_group]
      obtain ⟨rounds2, ts', hrec, hrr2, hrt2, hemp2⟩ :=
        ih (fun z hz => hwf z (by simp [hz])) (f2 + 1)
          (acc ++ [.Group l']) (skipNewlines (f2 + 1) ts3)
          (by omega) (by rw [hrw]; exact hsk)
      refine ⟨.Group l' :: rounds2, ts', ?_, ?_, ?_, hemp2⟩
      · rw [parseRoundsAux_succ, hpk0]
        simp only []
        rw [hpg]
        simp only []
        rw [hpk2]
        simp only []
        rw [if_neg (by simp [hk2]), hrec]
        simp
      · rw [renderRounds, renderRounds, renderInst_group,
          renderInst_group, hrb, hrt2]
      · rw [renderRoundsTail, renderRoundsTail, renderInst_group,
          renderInst_group, hrb, hrt2]

/-- C3: for any tree sequence produced by a successful parse_rounds,
rendering it with the canonical serializer (the Display implementation,
rounds joined by newlines) and parsing that rendered text with parse_rounds
succeeds, and serializing the re-parsed trees yields text identical,
character for character, to the first rendering. -/
theorem c3_round_trip (s : List Char) (r : List Instruction)
    (h : parseRounds s = .ok r) :
    ∃ r2, parseRounds (renderRounds r) = .ok r2 ∧
      renderRounds r2 = renderRounds r := by
  have hwf := parseRounds_wf s r h
  obtain ⟨rF, hwfF, hrrF, hrtF, hszF, hiffF⟩ := flat_rounds r hwf
  have htrim : trimEndRust (renderRounds r) = renderRounds r :=
    trimEnd_render r hwf
  have htok : tokenize (renderRounds r) =
      ⟨⟨renderRounds r, 1, 1⟩, none⟩ := by
    rw [tokenize, htrim]
  have hF : parseFuel (tokenize (renderRounds r)) =
      2 * (renderRounds r).length + 8 := by
    rw [htok, parseFuel]
  have hlk0 : Looks (skipNewlines (2 * (renderRounds r).length + 8)
      (⟨⟨renderRounds r, 1, 1⟩, none⟩ : TokenStream))
      (renderRounds rF) := by
    cases rF with
    | nil =>
      have hre : renderRounds r = [] := by
        rw [← hrrF, renderRounds]
      rw [hre, show renderRounds ([] : List Instruction) = [] from by
        rw [renderRounds]]
      exact skipNewlines_empty _ _ (looks_fresh [] 1 1)
    | cons x restF =>
      obtain ⟨l, hxl, hlne, hlwf⟩ := hwfF x (by simp)
      have hrw : renderRounds (x :: restF) =
          renderBody l ++ renderRoundsTail restF := by
        rw [renderRounds, hxl, renderInst_group]
      have hre : renderRounds r = renderBody l ++ renderRoundsTail restF := by
        rw [← hrrF, hrw]
      rw [hre, hrw]
      exact skipNewlines_noop _ _ _ (looks_fresh _ 1 1)
        (fun ln co => firstTok_body (instSizeList l) l le_rfl hlwf hlne
          (renderRoundsTail restF) ln co)
  obtain ⟨rounds2, ts', hrec, hrr2, hrt2, hemp2⟩ :=
    parseRoundsAux_render rF hwfF (2 * (renderRounds r).length + 8) []
      (skipNewlines (2 * (renderRounds r).length + 8)
        ⟨⟨renderRounds r, 1, 1⟩, none⟩)
      (by omega) hlk0
  rw [List.nil_append] at hrec
  have hrun : parseTop (parseFuel (tokenize (renderRounds r)))
      (tokenize (renderRounds r)) = (.ok rounds2, ts') := by
    rw [hF, htok, parseTop, hrec]
  refine ⟨rounds2, ?_, by rw [hrr2, hrrF]⟩
  rw [parseRounds]
  rw [hrun]
  simp only []
  rw [if_pos hemp2]

theorem c3_round_trip_witness :
    parseRounds "sc".data = .ok [.Group [.Sc]] ∧
    ∃ r2, parseRounds (renderRounds [.Group [.Sc]]) = .ok r2 ∧
      renderRounds r2 = renderRounds [.Group [.Sc]] :=
  ⟨rfl, c3_round_trip "sc".data [.Group [.Sc]] rfl⟩
